import Mathlib

/-!
Verification of the chunked-execution core of the `gunpowder` repository:
the `Scan` engine (`gunpowder/nodes/scan.py`) and the block-distributed
client `DaisyRequestBlocks` (`gunpowder/nodes/daisy_request_blocks.py`).

Coordinates are `List Int` (one entry per spatial dimension); ROIs carry an
offset and a shape.  The geometry helpers (`Roi`, `Coordinate` arithmetic)
live outside the two source files, so they are modelled from the spec;
everything in the `Scan` and `Daisy` namespaces is translated directly from
the Python source.
-/

set_option autoImplicit false

namespace Gunpowder

/-- Modelled from the spec: a Coordinate is an ordered tuple of signed
integers, one per spatial dimension, with element-wise arithmetic. -/
abbrev Coord := List Int

/-- Element-wise addition of coordinates. -/
def cAdd (a b : Coord) : Coord := List.zipWith (· + ·) a b

/-- Element-wise subtraction of coordinates. -/
def cSub (a b : Coord) : Coord := List.zipWith (· - ·) a b

/-- Element-wise minimum of coordinates. -/
def cMin (a b : Coord) : Coord := List.zipWith min a b

/-- Element-wise maximum of coordinates. -/
def cMax (a b : Coord) : Coord := List.zipWith max a b

/-- Modelled from the spec: a Roi is an offset and a shape in the same
D-dimensional space. -/
structure Roi where
  offset : Coord
  shape : Coord
deriving DecidableEq, Repr

namespace Roi

/-- Modelled from the spec: `end = offset + shape`. -/
def end_ (r : Roi) : Coord := cAdd r.offset r.shape

/-- Modelled from the spec: a Roi is empty iff any shape component is
zero or negative. -/
def isEmpty (r : Roi) : Bool := r.shape.any (fun s => s ≤ 0)

/-- Modelled from the spec: intersection of two ROIs — the offset is the
element-wise max of the offsets, the end the element-wise min of the ends
(empty if disjoint in any dimension). -/
def intersect (a b : Roi) : Roi :=
  let off := cMax a.offset b.offset
  let e := cMin a.end_ b.end_
  ⟨off, cSub e off⟩

/-- Modelled from the spec: shift a Roi by a coordinate. -/
def shift (r : Roi) (c : Coord) : Roi := ⟨cAdd r.offset c, r.shape⟩

/-- Per-dimension containment check: `offset ≤ p < offset + shape` in every
dimension (false on dimension mismatch). -/
def containsPointGo : Coord → Coord → Coord → Bool
  | o :: os, s :: ss, x :: xs =>
    (decide (o ≤ x) && decide (x < o + s)) && containsPointGo os ss xs
  | [], [], [] => true
  | _, _, _ => false

/-- Modelled from the spec: point containment — per dimension,
`offset ≤ p < end`. -/
def containsPoint (r : Roi) (p : Coord) : Bool :=
  containsPointGo r.offset r.shape p

/-- Modelled from the spec: conversion of a Roi from physical to voxel-grid
coordinates — floor-divide offset and shape by the voxel size. -/
def fdiv (r : Roi) (v : Coord) : Roi :=
  ⟨List.zipWith Int.fdiv r.offset v, List.zipWith Int.fdiv r.shape v⟩

/-- The Roi has `D`-dimensional offset and shape. -/
def hasDims (r : Roi) (D : Nat) : Prop :=
  r.offset.length = D ∧ r.shape.length = D

instance (r : Roi) (D : Nat) : Decidable (r.hasDims D) := by
  unfold hasDims; infer_instance

end Roi

/-- Modelled from the spec: dimension-wise least common multiple of a set
of voxel sizes. -/
def dimLcm : List Coord → Coord
  | [] => []
  | v :: rest => rest.foldl (fun a b => List.zipWith (fun x y => (Int.lcm x y : Int)) a b) v

/-- Stream keys are opaque identifiers. -/
abbrev Key := Nat

/-- One entry of a `BatchRequest`: a Roi plus the other per-stream fields
(voxel size, dtype) that a request spec carries. -/
structure RefSpec where
  roi : Roi
  voxel_size : Option Coord
  dtype : Nat
deriving DecidableEq, Repr

/-- A reference request: an ordered mapping from stream key to spec. -/
abbrev Request := List (Key × RefSpec)

/-- Association-list lookup (Python dict access by key). -/
def lookupKey {β : Type} (k : Key) (l : List (Key × β)) : Option β :=
  (l.find? (fun e => e.1 = k)).map (fun e => e.2)

/-- A spec entry has `D`-dimensional bounds whenever its ROI is bounded. -/
def specDimsOk (D : Nat) (e : Key × Option Roi) : Bool :=
  match e.2 with
  | some b => decide (b.hasDims D)
  | none => true

/-- Errors raised by the Scan engine (spec §7 taxonomy). -/
inductive ScanErr where
  /-- a reference window shape is smaller than the voxel-size lcm
  (the assertion in `Scan._get_stride`) -/
  | invalidConfiguration
  /-- the reference does not fit into a provided upstream ROI
  (the assertion in `Scan._get_shift_roi`) -/
  | referenceDoesNotFit
  /-- a running shift-ROI intersection became empty
  (first `RuntimeError` in `Scan._get_shift_roi`) -/
  | unsatisfiableTiling
  /-- no upstream ROI is bounded (second `RuntimeError` in
  `Scan._get_shift_roi`) -/
  | noBoundedStream
deriving DecidableEq, Repr

namespace Scan

/-- The per-entry assertion of `Scan._get_stride`: for every dimension `d`
of the lcm voxel size, `shape[d] >= lcm_voxel_size[d]`. -/
def strideCheck (lcmVox : Coord) (shape : Coord) : Bool :=
  (List.range lcmVox.length).all
    (fun d => lcmVox.getD d 0 ≤ shape.getD d 0)

/-- Loop of `Scan._get_stride`: fold the element-wise minimum of the
reference ROI shapes, checking each against the lcm voxel size. -/
def getStrideGo (lcmVox : Coord) : List (Key × RefSpec) → Option Coord →
    Except ScanErr (Option Coord)
  | [], stride => .ok stride
  | (_, rs) :: rest, stride =>
    if strideCheck lcmVox rs.roi.shape then
      match stride with
      | none => getStrideGo lcmVox rest (some rs.roi.shape)
      | some st => getStrideGo lcmVox rest (some (cMin st rs.roi.shape))
    else .error .invalidConfiguration

/-- `Scan._get_stride`: the component-wise minimum of the reference ROI
shapes, each of which must be at least the lcm voxel size.  Returns `none`
when the reference is empty (Python returns `None`). -/
def getStride (lcmVox : Coord) (reference : Request) : Except ScanErr (Option Coord) :=
  getStrideGo lcmVox reference none

/-- Shift ROI of one stream (`Scan._get_shift_roi`):
offset `bound.begin - ref.begin`, shape `bound.shape - ref.shape + 1`. -/
def shiftRoiOf (ref bound : Roi) : Roi :=
  ⟨cSub bound.offset ref.offset,
   List.zipWith (fun s r => s - r + 1) bound.shape ref.shape⟩

/-- The per-entry assertion of `Scan._get_shift_roi`: element-wise
`r <= s` over `zip(reference.roi.shape, spec.roi.shape)`. -/
def fitsCheck (refShape specShape : Coord) : Bool :=
  (List.zip refShape specShape).all (fun p => p.1 ≤ p.2)

/-- The per-entry assertion of `Scan._get_shift_roi`, phrased over the
spec: whenever the stream has a bounded ROI in the spec, the reference's
shape fits under it (vacuously true otherwise). -/
def fitsInSpec (spec : List (Key × Option Roi)) (e : Key × RefSpec) : Bool :=
  match lookupKey e.1 spec with
  | some (some b) => fitsCheck e.2.roi.shape b.shape
  | _ => true

/-- Loop of `Scan._get_shift_roi` over the reference entries, carrying the
running intersection (`total_shift_roi`). -/
def getShiftRoiGo (spec : List (Key × Option Roi)) :
    List (Key × RefSpec) → Option Roi → Except ScanErr Roi
  | [], none => .error .noBoundedStream
  | [], some total => .ok total
  | (k, rs) :: rest, total =>
    match lookupKey k spec with
    | none => getShiftRoiGo spec rest total
    | some none => getShiftRoiGo spec rest total
    | some (some bound) =>
      if fitsCheck rs.roi.shape bound.shape then
        let sr := shiftRoiOf rs.roi bound
        match total with
        | none => getShiftRoiGo spec rest (some sr)
        | some t =>
          let t2 := t.intersect sr
          if t2.isEmpty then .error .unsatisfiableTiling
          else getShiftRoiGo spec rest (some t2)
      else .error .referenceDoesNotFit

/-- `Scan._get_shift_roi`: minimal and maximal shift (as a ROI) such that
the reference stays contained in `spec`, intersected over all streams that
are present in `spec` with a bounded ROI. -/
def getShiftRoi (reference : Request) (spec : List (Key × Option Roi)) :
    Except ScanErr Roi :=
  getShiftRoiGo spec reference none

/-- The add-then-clamp step of `Scan._enumerate_shifts`:
`shift[d] += stride[d]; if shift[d] > max_shift[d]: shift[d] = max_shift[d]`. -/
def clampAdd (x st mx : Int) : Int := if x + st > mx then mx else x + st

/-- The `for d in range(dims)` body of `Scan._enumerate_shifts`: find the
first dimension that can still advance, advance it (clamped), and reset all
earlier dimensions to `min_shift`; if the last dimension cannot advance the
shift is returned unchanged (the loop merely breaks there). -/
def bumpShift : Coord → Coord → Coord → Coord → Coord
  | x :: xs, mn :: mns, mx :: mxs, st :: sts =>
    if mx ≤ x then
      if xs.isEmpty then x :: xs
      else mn :: bumpShift xs mns mxs sts
    else clampAdd x st mx :: xs
  | xs, _, _, _ => xs

/-- The `while True` loop of `Scan._enumerate_shifts`, with explicit fuel:
append the current shift, stop when it equals `max_shift`, otherwise bump. -/
def enumShiftsAux (mn mx st : Coord) : Nat → Coord → List Coord
  | 0, sh => [sh]
  | f + 1, sh =>
    if sh = mx then [sh] else sh :: enumShiftsAux mn mx st f (bumpShift sh mn mx st)

/-- Sufficient fuel for the enumeration loop: the product over dimensions
of `(max_shift - min_shift) + 1`. -/
def fuelFor (mn mx : Coord) : Nat :=
  (List.zipWith (fun a b => (b - a).toNat + 1) mn mx).prod

/-- `Scan._enumerate_shifts`: shifts starting at the beginning of
`shift_roi`, progressing by `stride`; the maximum shift in any dimension is
the last point inside `shift_roi` in that dimension. -/
def enumerateShifts (shiftRoi : Roi) (stride : Coord) : List Coord :=
  let mn := shiftRoi.offset
  let mx := cMax mn (shiftRoi.end_.map (fun m => m - 1))
  enumShiftsAux mn mx stride (fuelFor mn mx) mn

/-- `Scan._shift_request`: a copy of the request in which every stream's
ROI is shifted by `shift` (all other spec fields are kept). -/
def shiftRequest (request : Request) (shift : Coord) : Request :=
  request.map (fun e => (e.1, { e.2 with roi := e.2.roi.shift shift }))

/-- The shift ROIs of the streams of the reference that are present in the
spec with a bounded ROI, in reference order (the ROIs intersected by
`Scan._get_shift_roi`). -/
def boundedShiftRois (reference : Request) (spec : List (Key × Option Roi)) :
    List Roi :=
  reference.filterMap (fun e =>
    match lookupKey e.1 spec with
    | some (some b) => some (shiftRoiOf e.2.roi b)
    | _ => none)

/-- The scan positions of one dimension: start at `x`, repeatedly add the
stride and clamp to `mx`, stopping at `mx` (with fuel). -/
def seqD (mx st : Int) : Nat → Int → List Int
  | 0, x => [x]
  | f + 1, x => if mx ≤ x then [x] else x :: seqD mx st f (clampAdd x st mx)

/-- The complete scan positions of one dimension from `mn` to `mx`:
`(mx - mn).toNat` steps of fuel always suffice for a positive stride. -/
def seqFull (mn mx st : Int) : List Int := seqD mx st (mx - mn).toNat mn

/-- The per-dimension position lists of the shift enumeration. -/
def dimSeqs : Coord → Coord → Coord → List (List Int)
  | mn :: mns, mx :: mxs, st :: sts => seqFull mn mx st :: dimSeqs mns mxs sts
  | _, _, _ => []

/-- Cartesian product of per-dimension position lists, first dimension
varying fastest (the order in which `Scan._enumerate_shifts` counts). -/
def prodShifts : List (List Int) → List Coord
  | [] => [[]]
  | p :: ps => (prodShifts ps).flatMap (fun r => p.map (fun x => x :: r))

/-- The ideal remaining enumeration from a current shift `sh`: the full
inner-dimension sweep from `sh`'s head, then, for every later state of the
outer dimensions, a full inner sweep from `mn`. -/
def idealFrom : Coord → Coord → Coord → Coord → List Coord
  | mn :: mns, mx :: mxs, st :: sts, x :: r =>
    (seqFull x mx st).map (fun y => y :: r) ++
      (idealFrom mns mxs sts r).tail.flatMap
        (fun q => (seqFull mn mx st).map (fun y => y :: q))
  | _, _, _, _ => [[]]

/-- `Scan._fill`: convert both ROIs to voxel-grid coordinates, intersect,
and copy the overlapping element block of buffer `b` into buffer `a` at the
matching voxel-grid offset.  Buffers are index functions; an index `i` of
`a` lies in the written block iff `i + roi_a.offset` (in voxel coordinates)
is inside the intersection, and it receives the `b` element at the same
absolute voxel position. -/
def fill {α : Type} (a b : Coord → α) (roiA roiB : Roi) (voxelSize : Coord) :
    Coord → α :=
  let ra := roiA.fdiv voxelSize
  let rb := roiB.fdiv voxelSize
  let commonRoi := ra.intersect rb
  if commonRoi.isEmpty then a
  else
    let commonInA : Roi := ⟨cSub commonRoi.offset ra.offset, commonRoi.shape⟩
    fun i =>
      if commonInA.containsPoint i then b (cAdd i (cSub ra.offset rb.offset))
      else a i

/-- A graph node: unique id, spatial location, `temporary` flag. -/
structure GNode where
  id : Nat
  location : Coord
  temporary : Bool
deriving DecidableEq, Repr

/-- A graph edge referencing two node ids. -/
structure GEdge where
  u : Nat
  v : Nat
deriving DecidableEq, Repr

/-- A graph: nodes plus edges. -/
structure MGraph where
  nodes : List GNode
  edges : List GEdge
deriving DecidableEq, Repr

/-- `Graph.contains`: is a node with this id present? -/
def MGraph.containsId (g : MGraph) (i : Nat) : Bool := g.nodes.any (fun n => n.id = i)

/-- `Graph.node`: look up a node by id. -/
def MGraph.nodeById (g : MGraph) (i : Nat) : Option GNode :=
  g.nodes.find? (fun n => n.id = i)

/-- `Graph.add_node`. -/
def MGraph.addNode (g : MGraph) (n : GNode) : MGraph := ⟨g.nodes ++ [n], g.edges⟩

/-- `Graph.add_edge`. -/
def MGraph.addEdge (g : MGraph) (e : GEdge) : MGraph := ⟨g.nodes, g.edges ++ [e]⟩

/-- `Scan._fill_points`: take points from `b` and add them to `a` — every
non-temporary node of `b` whose location is contained in `roi_a`, then every
edge of `b` whose endpoints are non-temporary and whose ids are contained in
the accumulator (after the node copies).  The Python code computes
`roi_a.intersect(roi_b)` but its `None` check is dead (`intersect` always
returns a Roi), so the intersection plays no role; an edge whose endpoint id
is missing from `b` raises a `KeyError` in Python and is outside the
modelled domain (here such an edge is skipped). -/
def fillPoints (a b : MGraph) (roiA roiB : Roi) : MGraph :=
  let _commonRoi := roiA.intersect roiB
  let a1 := b.nodes.foldl
    (fun acc n =>
      if ¬ n.temporary ∧ roiA.containsPoint n.location then acc.addNode n else acc)
    a
  b.edges.foldl
    (fun acc e =>
      match b.nodeById e.u, b.nodeById e.v with
      | some bu, some bv =>
        if ¬ bu.temporary ∧ ¬ bv.temporary ∧ acc.containsId bu.id ∧
            acc.containsId bv.id then
          acc.addEdge e
        else acc
      | _, _ => acc)
    a1

/-- The edge-copy condition of `Scan._fill_points`, as a function of the
destination's node list: both endpoints resolve in the chunk graph, are
non-temporary, and their ids are present in the destination. -/
def edgeKeep (b : MGraph) (nodes : List GNode) (e : GEdge) : Bool :=
  match b.nodeById e.u, b.nodeById e.v with
  | some bu, some bv =>
    !bu.temporary && !bv.temporary && nodes.any (fun n => n.id = bu.id) &&
      nodes.any (fun n => n.id = bv.id)
  | _, _ => false

/-- The node-copy condition of `Scan._fill_points`: non-temporary and
located inside the accumulator's target ROI. -/
def nodeKeep (roiA : Roi) (n : GNode) : Bool :=
  !n.temporary && roiA.containsPoint n.location

/-- An array of a chunk or accumulator batch: a dense buffer (as an index
function on voxel-grid indices relative to its Roi) plus its Roi. -/
structure MArray where
  dataB : Coord → Int
  roi : Roi

/-- A batch: a mapping from stream key to array. -/
abbrev MBatch := List (Key × MArray)

/-- `Scan._setup_batch` (array part): allocate a zero-filled array per
requested stream, with the request's Roi. -/
def setupBatch (request : List (Key × Roi)) : MBatch :=
  request.map (fun e => (e.1, ⟨fun _ => 0, e.2⟩))

/-- `Scan._add_to_batch` (array part): for every chunk array whose key is
requested, fill it into the accumulator array using the request's Roi, the
chunk's Roi and the stream's voxel size. -/
def addToBatch (voxelOf : Key → Coord) (request : List (Key × Roi))
    (acc chunk : MBatch) : MBatch :=
  acc.map (fun e =>
    match lookupKey e.1 chunk, lookupKey e.1 request with
    | some carr, some reqRoi =>
      (e.1, ⟨fill e.2.dataB carr.dataB reqRoi carr.roi (voxelOf e.1), e.2.roi⟩)
    | _, _ => e)

/-- `Scan.provide`: derive the scan spec (the request itself, or the
upstream spec when the request is empty), compute stride and shift ROI,
enumerate the shifts, build one shifted sub-request per shift (the returned
trace, in dispatch order) and, when the request is non-empty, fold every
chunk produced by `upstream` into a lazily allocated accumulator.  An empty
request returns an empty batch. -/
def provide (lcmVox : Coord) (reference : Request)
    (upstreamSpec : List (Key × Option Roi)) (voxelOf : Key → Coord)
    (upstream : Request → MBatch) (request : List (Key × Roi)) :
    List Request × Except ScanErr MBatch :=
  let scanSpec := if request.isEmpty then upstreamSpec
    else request.map (fun e => (e.1, some e.2))
  match getStride lcmVox reference with
  | .error e => ([], .error e)
  | .ok strideOpt =>
    match getShiftRoi reference scanSpec with
    | .error e => ([], .error e)
    | .ok shiftRoi =>
      let stride := strideOpt.getD []
      let shifts := enumerateShifts shiftRoi stride
      let subs := shifts.map (fun s => shiftRequest reference s)
      let result : MBatch :=
        if request.isEmpty then []
        else
          (subs.foldl
            (fun acc sub =>
              let chunk := upstream sub
              match acc with
              | none => some (addToBatch voxelOf request (setupBatch request) chunk)
              | some batch => some (addToBatch voxelOf request batch chunk))
            none).getD []
      (subs, .ok result)

end Scan

/-- A daisy block: a read ROI, a write ROI and an identifier (standing for
the completion token consumed by `release_block`). -/
structure DBlock where
  read_roi : Roi
  write_roi : Roi
  blockId : Nat
deriving DecidableEq, Repr

/-- Errors raised by `DaisyRequestBlocks`. -/
inductive DaisyErr where
  /-- non-empty request passed to `provide` -/
  | nonEmptyRequestNotAllowed
  /-- `roi_map` does not map an item of the reference -/
  | unmappedStream
  /-- `roi_map` maps an item to something other than a ROI type -/
  | invalidRoiType
deriving DecidableEq, Repr

/-- Observable calls made by the block-distributed client to its external
collaborators. -/
inductive DEvent where
  /-- `request_batch` with the given request -/
  | upstreamReq (req : Request)
  /-- `release_block` with the given block id and status -/
  | releaseBlock (blockId : Nat) (ret : Int)
deriving DecidableEq, Repr

namespace Daisy

/-- Replace the ROI of the entry with the given key (`chunk_request[key].roi = ...`). -/
def setRoi (req : Request) (k : Key) (r : Roi) : Request :=
  req.map (fun e => if e.1 = k then (e.1, { e.2 with roi := r }) else e)

/-- The `for key, reference_spec in self.reference.items()` loop of
`DaisyRequestBlocks.__get_chunks`, for one acquired block: per key, look up
the ROI type, replace that key's ROI in the running chunk request, and —
still inside the loop, as in the source — issue the upstream request and
release the block. -/
def blockGo (roiMap : List (Key × String)) (block : DBlock) :
    List (Key × RefSpec) → Request → List DEvent → List DEvent × Option DaisyErr
  | [], _, evs => (evs, none)
  | (k, _) :: rest, chunkReq, evs =>
    match lookupKey k roiMap with
    | none => (evs, some .unmappedStream)
    | some t =>
      if t = "read_roi" then
        let chunkReq2 := setRoi chunkReq k block.read_roi
        blockGo roiMap block rest chunkReq2
          (evs ++ [.upstreamReq chunkReq2, .releaseBlock block.blockId 0])
      else if t = "write_roi" then
        let chunkReq2 := setRoi chunkReq k block.write_roi
        blockGo roiMap block rest chunkReq2
          (evs ++ [.upstreamReq chunkReq2, .releaseBlock block.blockId 0])
      else (evs, some .invalidRoiType)

/-- `DaisyRequestBlocks.__get_chunks`: repeatedly acquire a block (the
external scheduler is modelled as the list of blocks it hands out before
signalling exhaustion with `None`) and process it; the chunk request starts
as a copy of the reference for each block. -/
def getChunks (reference : Request) (roiMap : List (Key × String)) :
    List DBlock → List DEvent → List DEvent × Option DaisyErr
  | [], evs => (evs, none)
  | b :: rest, evs =>
    match blockGo roiMap b reference reference evs with
    | (evs2, none) => getChunks reference roiMap rest evs2
    | (evs2, some e) => (evs2, some e)

/-- `DaisyRequestBlocks.provide` (single worker): reject non-empty requests,
otherwise drain the scheduler via `__get_chunks`.  Returns the trace of
external calls and the error, if any. -/
def provide (reference : Request) (roiMap : List (Key × String))
    (request : List (Key × Roi)) (blocks : List DBlock) :
    List DEvent × Option DaisyErr :=
  if request.isEmpty then getChunks reference roiMap blocks []
  else ([], some .nonEmptyRequestNotAllowed)

/-- Is this event a `release_block` call? -/
def isRelease : DEvent → Bool
  | .releaseBlock _ _ => true
  | _ => false

/-- Is this event an upstream `request_batch` call? -/
def isUpstream : DEvent → Bool
  | .upstreamReq _ => true
  | _ => false

end Daisy

/-! ### Concrete scenario inputs (spec §8 end-to-end scenarios) -/

/-- Reference request of the 2D scan scenario: one array stream with a
(4,4) reference window at the origin and voxel size (1,1). -/
def exReference : Request := [(0, ⟨⟨[0, 0], [4, 4]⟩, some [1, 1], 0⟩)]

/-- Request of the 2D scan scenario: Roi offset (0,0), shape (10,10). -/
def exRequest : List (Key × Roi) := [(0, ⟨[0, 0], [10, 10]⟩)]

/-- Upstream provider spec of the 2D scan scenario. -/
def exSpec : List (Key × Option Roi) := [(0, some ⟨[0, 0], [10, 10]⟩)]

/-- Upstream provider of the 2D scan scenario: each chunk is an all-ones
buffer over the sub-request's ROI. -/
def exUpstream (sub : Request) : Scan.MBatch :=
  [(0, ⟨fun _ => 1,
        match lookupKey 0 sub with
        | some rs => rs.roi
        | none => ⟨[], []⟩⟩)]

/-- Result of scanning the 2D scenario with one worker. -/
def exOut : List Request × Except ScanErr Scan.MBatch :=
  Scan.provide [1, 1] exReference exSpec (fun _ => [1, 1]) exUpstream exRequest

/-- Accumulator element of the 2D scenario at a voxel-grid index. -/
def exVal (idx : Coord) : Int :=
  match exOut.2 with
  | .ok ((_, arr) :: _) => arr.dataB idx
  | _ => 0

/-- Roi of the accumulator array of the 2D scenario. -/
def exAccRoi : Roi :=
  match exOut.2 with
  | .ok ((_, arr) :: _) => arr.roi
  | _ => ⟨[], []⟩

/-- The 2D scenario with an empty original request. -/
def exOutEmpty : List Request × Except ScanErr Scan.MBatch :=
  Scan.provide [1, 1] exReference exSpec (fun _ => [1, 1]) exUpstream []

/-- A block handed out by the external scheduler in the daisy scenarios. -/
def exBlock : DBlock := ⟨⟨[10], [6]⟩, ⟨[11], [4]⟩, 7⟩

/-- A one-stream reference for the daisy scenarios. -/
def exDaisyRef1 : Request := [(0, ⟨⟨[0], [4]⟩, some [1], 0⟩)]

/-- A two-stream reference exposing the release-per-stream defect. -/
def exDaisyRef2 : Request := [(0, ⟨⟨[0], [4]⟩, some [1], 0⟩), (1, ⟨⟨[0], [4]⟩, some [1], 0⟩)]

/-! ## Lemmas and claim theorems -/

/-- Looking a key up after mapping a key-preserving function over the
entries maps the function over the lookup result. -/
theorem lookupKey_map {β γ : Type} (k : Key) (f : β → γ) (l : List (Key × β)) :
    lookupKey k (l.map (fun e => (e.1, f e.2))) = (lookupKey k l).map f := by
  induction l with
  | nil => rfl
  | cons e rest ih =>
    unfold lookupKey at ih ⊢
    by_cases h : e.1 = k
    · rw [List.map_cons, List.find?_cons_of_pos _ (by simpa using h),
        List.find?_cons_of_pos _ (by simpa using h)]
      rfl
    · rw [List.map_cons, List.find?_cons_of_neg _ (by simpa using h),
        List.find?_cons_of_neg _ (by simpa using h)]
      exact ih

/-- `Daisy.blockGo` can only fail with a map-related error, never with
`nonEmptyRequestNotAllowed`. -/
theorem daisy_blockGo_ne_nonempty (roiMap : List (Key × String)) (block : DBlock) :
    ∀ (keys : List (Key × RefSpec)) (chunkReq : Request) (evs : List DEvent),
      (Daisy.blockGo roiMap block keys chunkReq evs).2 ≠
        some DaisyErr.nonEmptyRequestNotAllowed := by
  intro keys
  induction keys with
  | nil => intro _ _ h; simp [Daisy.blockGo] at h
  | cons e rest ih =>
    intro chunkReq evs h
    rcases hl : lookupKey e.1 roiMap with _ | t
    · simp [Daisy.blockGo, hl] at h
    · simp only [Daisy.blockGo, hl] at h
      split at h
      · exact ih _ _ h
      · split at h
        · exact ih _ _ h
        · simp at h

/-- `Daisy.getChunks` never fails with `nonEmptyRequestNotAllowed`. -/
theorem daisy_getChunks_ne_nonempty (reference : Request)
    (roiMap : List (Key × String)) :
    ∀ (blocks : List DBlock) (evs : List DEvent),
      (Daisy.getChunks reference roiMap blocks evs).2 ≠
        some DaisyErr.nonEmptyRequestNotAllowed := by
  intro blocks
  induction blocks with
  | nil => intro _ h; simp [Daisy.getChunks] at h
  | cons b rest ih =>
    intro evs h
    rw [Daisy.getChunks] at h
    rcases hb : Daisy.blockGo roiMap b reference reference evs with ⟨evs2, err⟩
    rcases err with _ | e
    · rw [hb] at h; exact ih _ h
    · rw [hb] at h
      have h2 : e = DaisyErr.nonEmptyRequestNotAllowed := by simpa using h
      exact daisy_blockGo_ne_nonempty roiMap b reference reference evs
        (by rw [hb, h2])

/-- C1 (code bug evaluation): at the failing input — a reference with two
streams, both mapped to `read_roi`, an empty request, and a scheduler
yielding one block — the client issues two upstream requests and calls
`release_block` twice for the single acquired block, because the source
places both calls inside the per-stream loop of `__get_chunks`; the claim
(and the spec) require exactly one `release_block` per acquired block. -/
theorem daisy_release_block_called_per_stream :
    (Daisy.provide exDaisyRef2 [(0, "read_roi"), (1, "read_roi")] []
        [exBlock]).1.countP Daisy.isRelease = 2 ∧
    (Daisy.provide exDaisyRef2 [(0, "read_roi"), (1, "read_roi")] []
        [exBlock]).1.countP Daisy.isUpstream = 2 ∧
    [exBlock].length = 1 ∧
    (Daisy.provide exDaisyRef2 [(0, "read_roi"), (1, "read_roi")] []
        [exBlock]).2 = none := by
  decide

/-- C6: a non-empty request to the block-distributed client fails with
`NonEmptyRequestNotAllowed` and issues zero upstream calls; an empty
request never raises this error. -/
theorem daisy_provide_rejects_nonempty (reference : Request)
    (roiMap : List (Key × String)) (request : List (Key × Roi))
    (blocks : List DBlock) :
    (request ≠ [] →
      Daisy.provide reference roiMap request blocks =
        ([], some DaisyErr.nonEmptyRequestNotAllowed)) ∧
    (request = [] →
      (Daisy.provide reference roiMap request blocks).2 ≠
        some DaisyErr.nonEmptyRequestNotAllowed) := by
  constructor
  · intro hne
    have : request.isEmpty = false := by
      cases request with
      | nil => exact absurd rfl hne
      | cons a l => rfl
    simp [Daisy.provide, this]
  · intro he
    subst he
    simp only [Daisy.provide, List.isEmpty_nil, if_true]
    exact daisy_getChunks_ne_nonempty reference roiMap blocks []

/-- C6 witness: the two branches at concrete inputs. -/
theorem daisy_provide_rejects_nonempty_witness :
    Daisy.provide exDaisyRef1 [(0, "read_roi")] [(0, ⟨[0], [1]⟩)] [exBlock] =
      ([], some DaisyErr.nonEmptyRequestNotAllowed) ∧
    (Daisy.provide exDaisyRef1 [(0, "read_roi")] [] [exBlock]).2 ≠
      some DaisyErr.nonEmptyRequestNotAllowed :=
  ⟨(daisy_provide_rejects_nonempty exDaisyRef1 [(0, "read_roi")]
      [(0, ⟨[0], [1]⟩)] [exBlock]).1 (by decide),
   (daisy_provide_rejects_nonempty exDaisyRef1 [(0, "read_roi")]
      [] [exBlock]).2 rfl⟩

/-- C10: building a sub-request leaves the reference request intact and
produces a copy in which each stream's ROI is shifted by the given shift
while every other field of each stream's spec is unchanged (the shift is a
pure function of a copied request; the stored reference is never written). -/
theorem scan_shift_request_pure (request : Request) (shift : Coord) (k : Key) :
    lookupKey k (Scan.shiftRequest request shift) =
      (lookupKey k request).map (fun sp => { sp with roi := sp.roi.shift shift }) ∧
    (Scan.shiftRequest request shift).map Prod.fst = request.map Prod.fst ∧
    ∀ sp2, lookupKey k (Scan.shiftRequest request shift) = some sp2 →
      ∃ sp, lookupKey k request = some sp ∧ sp2.roi = sp.roi.shift shift ∧
        sp2.voxel_size = sp.voxel_size ∧ sp2.dtype = sp.dtype := by
  have h0 : Scan.shiftRequest request shift =
      request.map (fun e =>
        (e.1, (fun sp => { sp with roi := sp.roi.shift shift }) e.2)) := rfl
  rw [h0]
  refine ⟨lookupKey_map k (fun sp => { sp with roi := sp.roi.shift shift }) request,
    by simp, ?_⟩
  intro sp2 h
  have h1 := (lookupKey_map k (fun sp => { sp with roi := sp.roi.shift shift })
      request).symm.trans h
  rcases Option.map_eq_some'.mp h1 with ⟨sp, hsp, hval⟩
  exact ⟨sp, hsp, by rw [← hval], by rw [← hval], by rw [← hval]⟩

/-- C10 witness: at a concrete one-stream request and shift. -/
theorem scan_shift_request_pure_witness :
    ∃ sp, lookupKey 0 exReference = some sp ∧
      (⟨⟨[2, 3], [4, 4]⟩, some [1, 1], 0⟩ : RefSpec).roi = sp.roi.shift [2, 3] ∧
      (⟨⟨[2, 3], [4, 4]⟩, some [1, 1], 0⟩ : RefSpec).voxel_size = sp.voxel_size ∧
      (⟨⟨[2, 3], [4, 4]⟩, some [1, 1], 0⟩ : RefSpec).dtype = sp.dtype :=
  (scan_shift_request_pure exReference [2, 3] 0).2.2 _ rfl

/-- C9: for an empty original request the scan derives its shift range from
the upstream spec, issues one sub-request per enumerated chunk (the shifted
reference), builds no accumulator and returns an empty batch. -/
theorem scan_provide_empty_request (lcmVox : Coord) (reference : Request)
    (upstreamSpec : List (Key × Option Roi)) (voxelOf : Key → Coord)
    (upstream : Request → Scan.MBatch) (strideOpt : Option Coord) (shiftRoi : Roi)
    (hs : Scan.getStride lcmVox reference = .ok strideOpt)
    (hr : Scan.getShiftRoi reference upstreamSpec = .ok shiftRoi) :
    Scan.provide lcmVox reference upstreamSpec voxelOf upstream [] =
      ((Scan.enumerateShifts shiftRoi (strideOpt.getD [])).map
        (fun s => Scan.shiftRequest reference s), .ok []) := by
  simp [Scan.provide, hs, hr]

/-- C9 witness: the concrete 2D scenario with an empty request issues the
nine sub-requests and returns an empty batch. -/
theorem scan_provide_empty_request_witness :
    Scan.provide [1, 1] exReference exSpec (fun _ => [1, 1]) exUpstream [] =
      ((Scan.enumerateShifts ⟨[0, 0], [7, 7]⟩ ((some [4, 4] : Option Coord).getD [])).map
        (fun s => Scan.shiftRequest exReference s), .ok []) :=
  scan_provide_empty_request [1, 1] exReference exSpec (fun _ => [1, 1])
    exUpstream (some [4, 4]) ⟨[0, 0], [7, 7]⟩ rfl rfl

/-- If some reference entry fails the lcm-voxel-size check, the stride
computation fails with `InvalidConfiguration`, whatever the accumulator. -/
theorem scan_getStrideGo_violation (lcmVox : Coord) :
    ∀ (reference : Request) (acc : Option Coord),
      (∃ e ∈ reference, Scan.strideCheck lcmVox e.2.roi.shape = false) →
      Scan.getStrideGo lcmVox reference acc = .error ScanErr.invalidConfiguration := by
  intro reference
  induction reference with
  | nil => intro acc h; simp at h
  | cons e rest ih =>
    intro acc h
    by_cases hc : Scan.strideCheck lcmVox e.2.roi.shape
    · rcases h with ⟨e2, he2, hchk⟩
      rcases List.mem_cons.mp he2 with rfl | hmem
      · rw [hc] at hchk; cases hchk
      · cases acc with
        | none => simpa [Scan.getStrideGo, hc] using ih _ ⟨e2, hmem, hchk⟩
        | some st => simpa [Scan.getStrideGo, hc] using ih _ ⟨e2, hmem, hchk⟩
    · simp only [Bool.not_eq_true] at hc
      simp [Scan.getStrideGo, hc]

/-- C5: if some stream's reference ROI shape is smaller than the
dimension-wise lcm of the voxel sizes in some dimension, the scan fails
with `InvalidConfiguration` and issues zero upstream sub-requests. -/
theorem scan_provide_invalid_configuration (voxelSizes : List Coord)
    (reference : Request) (upstreamSpec : List (Key × Option Roi))
    (voxelOf : Key → Coord) (upstream : Request → Scan.MBatch)
    (request : List (Key × Roi))
    (hviol : ∃ e ∈ reference, ∃ d, d < (dimLcm voxelSizes).length ∧
        d < e.2.roi.shape.length ∧
        e.2.roi.shape.getD d 0 < (dimLcm voxelSizes).getD d 0) :
    Scan.provide (dimLcm voxelSizes) reference upstreamSpec voxelOf upstream
        request = ([], .error ScanErr.invalidConfiguration) := by
  rcases hviol with ⟨e, hmem, d, hd, _hd2, hlt⟩
  have hchk : Scan.strideCheck (dimLcm voxelSizes) e.2.roi.shape = false := by
    rw [Scan.strideCheck]
    rw [Bool.eq_false_iff]
    intro hall
    rw [List.all_eq_true] at hall
    have := hall d (List.mem_range.mpr hd)
    rw [decide_eq_true_eq] at this
    omega
  have hstride := scan_getStrideGo_violation (dimLcm voxelSizes) reference none
    ⟨e, hmem, hchk⟩
  simp [Scan.provide, Scan.getStride, hstride]

/-- C5 witness: the 2D scenario with voxel size (5,5) — the (4,4)
reference window is smaller than the lcm — fails before any upstream call. -/
theorem scan_provide_invalid_configuration_witness :
    Scan.provide (dimLcm [[5, 5]]) exReference exSpec (fun _ => [5, 5])
        exUpstream exRequest = ([], .error ScanErr.invalidConfiguration) :=
  scan_provide_invalid_configuration [[5, 5]] exReference exSpec
    (fun _ => [5, 5]) exUpstream exRequest
    ⟨(0, ⟨⟨[0, 0], [4, 4]⟩, some [1, 1], 0⟩), by decide, 0, by decide, by decide,
      by decide⟩

/-- The node-copy condition of `Scan._fill_points` as a Bool predicate. -/
theorem nodeKeep_iff (roiA : Roi) (n : Scan.GNode) :
    Scan.nodeKeep roiA n = true ↔
      (¬ n.temporary ∧ roiA.containsPoint n.location) := by
  cases hb : n.temporary <;> simp [Scan.nodeKeep, hb]

/-- The node loop of `Scan._fill_points` appends exactly the chunk nodes
satisfying the copy condition. -/
theorem foldl_addNode_filter (roiA : Roi) :
    ∀ (l : List Scan.GNode) (g : Scan.MGraph),
      l.foldl (fun acc n =>
        if ¬ n.temporary ∧ roiA.containsPoint n.location then acc.addNode n
        else acc) g =
      ⟨g.nodes ++ l.filter (Scan.nodeKeep roiA), g.edges⟩ := by
  intro l
  induction l with
  | nil => intro g; simp
  | cons n rest ih =>
    intro g
    by_cases h : ¬ n.temporary ∧ roiA.containsPoint n.location
    · have hk : Scan.nodeKeep roiA n = true := (nodeKeep_iff roiA n).mpr h
      rw [List.foldl_cons, if_pos h, ih]
      simp [Scan.MGraph.addNode, List.filter_cons, hk]
    · have hk : Scan.nodeKeep roiA n = false := by
        rw [Bool.eq_false_iff]
        intro hc
        exact h ((nodeKeep_iff roiA n).mp hc)
      rw [List.foldl_cons, if_neg h, ih]
      simp [List.filter_cons, hk]

/-- The edge loop of `Scan._fill_points` appends exactly the chunk edges
satisfying the copy condition with respect to the (constant) node list of
the accumulator. -/
theorem foldl_addEdge_filter (b : Scan.MGraph) :
    ∀ (l : List Scan.GEdge) (g : Scan.MGraph),
      l.foldl (fun acc e =>
        match b.nodeById e.u, b.nodeById e.v with
        | some bu, some bv =>
          if ¬ bu.temporary ∧ ¬ bv.temporary ∧ acc.containsId bu.id ∧
              acc.containsId bv.id then
            acc.addEdge e
          else acc
        | _, _ => acc) g =
      ⟨g.nodes, g.edges ++ l.filter (Scan.edgeKeep b g.nodes)⟩ := by
  intro l
  induction l with
  | nil => intro g; simp
  | cons e rest ih =>
    intro g
    rw [List.foldl_cons]
    rcases hu : b.nodeById e.u with _ | bu <;> rcases hv : b.nodeById e.v with _ | bv
    all_goals simp only [hu, hv]
    · rw [ih]; simp [List.filter_cons, Scan.edgeKeep, hu, hv]
    · rw [ih]; simp [List.filter_cons, Scan.edgeKeep, hu, hv]
    · rw [ih]; simp [List.filter_cons, Scan.edgeKeep, hu, hv]
    · by_cases h : ¬ bu.temporary ∧ ¬ bv.temporary ∧ g.containsId bu.id ∧
          g.containsId bv.id
      · have hk : Scan.edgeKeep b g.nodes e = true := by
          simp only [Scan.edgeKeep, hu, hv]
          rcases h with ⟨h1, h2, h3, h4⟩
          simp only [Scan.MGraph.containsId] at h3 h4
          simp only [Bool.not_eq_true] at h1 h2
          simp [h1, h2, h3, h4]
        rw [if_pos h, ih]
        simp [Scan.MGraph.addEdge, List.filter_cons, hk]
      · have hk : Scan.edgeKeep b g.nodes e = false := by
          rw [Bool.eq_false_iff]
          intro hc
          simp only [Scan.edgeKeep, hu, hv, Bool.and_eq_true,
            Bool.not_eq_true'] at hc
          exact h ⟨by simp [hc.1.1.1], by simp [hc.1.1.2],
            by simpa [Scan.MGraph.containsId] using hc.1.2,
            by simpa [Scan.MGraph.containsId] using hc.2⟩
        rw [if_neg h, ih]
        simp [List.filter_cons, hk]

/-- C7 counterexample: a non-temporary chunk node located inside the
accumulator's target ROI but outside the intersection of the two ROIs is
nevertheless copied — `_fill_points` tests `roi_a.contains`, not the
intersection, so the claim as stated fails. -/
theorem scan_fill_points_intersection_refuted :
    (Scan.fillPoints ⟨[], []⟩ ⟨[⟨1, [0], false⟩], []⟩ ⟨[0], [2]⟩
        ⟨[5], [2]⟩).nodes = [⟨1, [0], false⟩] ∧
    (Roi.intersect ⟨[0], [2]⟩ ⟨[5], [2]⟩).containsPoint [0] = false ∧
    (⟨1, [0], false⟩ : Scan.GNode).temporary = false := by
  decide

/-- C7 (amended): the graph fold copies exactly those chunk nodes whose
location lies in the accumulator's target ROI (`roi_a`) and whose temporary
flag is false, and exactly those chunk edges whose endpoints resolve in the
chunk, are non-temporary and are present (by id) in the accumulator after
the node copies — so an edge referencing a node absent from the destination
is excluded even if that node exists in the source chunk. -/
theorem scan_fill_points_exact (a b : Scan.MGraph) (roiA roiB : Roi) :
    Scan.fillPoints a b roiA roiB =
      ⟨a.nodes ++ b.nodes.filter (Scan.nodeKeep roiA),
       a.edges ++ b.edges.filter
         (Scan.edgeKeep b (a.nodes ++ b.nodes.filter (Scan.nodeKeep roiA)))⟩ := by
  show (Scan.fillPoints a b roiA roiB) = _
  unfold Scan.fillPoints
  rw [foldl_addNode_filter, foldl_addEdge_filter]

/-- `cAdd` on cons cells. -/
theorem cAdd_cons (a b : Int) (as bs : List Int) :
    cAdd (a :: as) (b :: bs) = (a + b) :: cAdd as bs := rfl

/-- `cSub` on cons cells. -/
theorem cSub_cons (a b : Int) (as bs : List Int) :
    cSub (a :: as) (b :: bs) = (a - b) :: cSub as bs := rfl

/-- `cMin` on cons cells. -/
theorem cMin_cons (a b : Int) (as bs : List Int) :
    cMin (a :: as) (b :: bs) = (min a b) :: cMin as bs := rfl

/-- `cMax` on cons cells. -/
theorem cMax_cons (a b : Int) (as bs : List Int) :
    cMax (a :: as) (b :: bs) = (max a b) :: cMax as bs := rfl

/-- The per-dimension containment of the shifted intersection: an index
`i` lies in `intersect a b` translated by `-a.offset` iff the absolute
point `i + a.offset` lies in both `a` and `b` (all lists of one common
dimension). -/
theorem containsPointGo_inter_shift :
    ∀ (oa sa ob sb i : List Int), oa.length = sa.length →
      oa.length = ob.length → oa.length = sb.length → oa.length = i.length →
      Roi.containsPointGo (cSub (cMax oa ob) oa)
          (cSub (cMin (cAdd oa sa) (cAdd ob sb)) (cMax oa ob)) i =
        (Roi.containsPointGo oa sa (cAdd i oa) &&
          Roi.containsPointGo ob sb (cAdd i oa)) := by
  intro oa
  induction oa with
  | nil =>
    intro sa ob sb i h1 h2 h3 h4
    rw [List.length_nil] at h1 h2 h3 h4
    rw [List.eq_nil_of_length_eq_zero h1.symm, List.eq_nil_of_length_eq_zero h2.symm,
      List.eq_nil_of_length_eq_zero h3.symm, List.eq_nil_of_length_eq_zero h4.symm]
    rfl
  | cons o oas ih =>
    intro sa ob sb i h1 h2 h3 h4
    rcases sa with _ | ⟨s, sas⟩; · simp at h1
    rcases ob with _ | ⟨p, obs⟩; · simp at h2
    rcases sb with _ | ⟨q, sbs⟩; · simp at h3
    rcases i with _ | ⟨x, xs⟩; · simp at h4
    simp only [List.length_cons, Nat.succ.injEq] at h1 h2 h3 h4
    simp only [cAdd_cons, cSub_cons, cMin_cons, cMax_cons]
    simp only [Roi.containsPointGo]
    rw [ih sas obs sbs xs h1 h2 h3 h4]
    have harith : (decide (max o p - o ≤ x) &&
        decide (x < max o p - o + (min (o + s) (p + q) - max o p))) =
        ((decide (o ≤ x + o) && decide (x + o < o + s)) &&
          (decide (p ≤ x + o) && decide (x + o < p + q))) := by
      rw [← Bool.decide_and, ← Bool.decide_and, ← Bool.decide_and,
        ← Bool.decide_and]
      exact decide_eq_decide.mpr (by omega)
    rw [harith]
    rcases Roi.containsPointGo oas sas (cAdd xs oas) with _ | _ <;>
      rcases Roi.containsPointGo obs sbs (cAdd xs oas) with _ | _ <;>
      rcases decide (o ≤ x + o) && decide (x + o < o + s) with _ | _ <;>
      rcases decide (p ≤ x + o) && decide (x + o < p + q) with _ | _ <;>
      rfl

/-- A shape with a non-positive component contains no point. -/
theorem containsPointGo_of_empty :
    ∀ (shape off i : List Int), shape.any (fun s => s ≤ 0) = true →
      Roi.containsPointGo off shape i = false := by
  intro shape
  induction shape with
  | nil => intro off i h; simp at h
  | cons s ss ih =>
    intro off i h
    rcases off with _ | ⟨o, os⟩
    · rfl
    rcases i with _ | ⟨x, xs⟩
    · rfl
    simp only [List.any_cons, Bool.or_eq_true, decide_eq_true_eq] at h
    rcases h with h | h
    · simp only [Roi.containsPointGo, Bool.and_eq_false_iff]
      left
      rcases le_or_lt o x with ho | ho
      · right; simp; omega
      · left; simp; omega
    · simp only [Roi.containsPointGo, Bool.and_eq_false_iff]
      right
      exact ih os xs (by simpa using h)

/-- C8: the array fill converts both ROIs to voxel-grid coordinates,
intersects them, and copies the overlapping element block from the chunk
buffer into the accumulator buffer at the matching voxel-grid offset: an
accumulator index receives the chunk element at the same absolute voxel
position exactly when its absolute position lies in both voxel-grid ROIs,
and keeps its old value otherwise; an empty intersection is a no-op. -/
theorem scan_fill_spec {α : Type} (a b : Coord → α) (roiA roiB : Roi)
    (vox : Coord) (D : Nat)
    (hA : (roiA.fdiv vox).hasDims D) (hB : (roiB.fdiv vox).hasDims D) :
    (∀ i : Coord, i.length = D →
      Scan.fill a b roiA roiB vox i =
        if ((roiA.fdiv vox).containsPoint (cAdd i (roiA.fdiv vox).offset) &&
            (roiB.fdiv vox).containsPoint (cAdd i (roiA.fdiv vox).offset)) =
            true then
          b (cAdd i (cSub (roiA.fdiv vox).offset (roiB.fdiv vox).offset))
        else a i) ∧
    (((roiA.fdiv vox).intersect (roiB.fdiv vox)).isEmpty = true →
      Scan.fill a b roiA roiB vox = a) := by
  rcases hA with ⟨hA1, hA2⟩
  rcases hB with ⟨hB1, hB2⟩
  have hkey : ∀ i : Coord, i.length = D →
      Roi.containsPointGo
        (cSub ((roiA.fdiv vox).intersect (roiB.fdiv vox)).offset
          (roiA.fdiv vox).offset)
        ((roiA.fdiv vox).intersect (roiB.fdiv vox)).shape i =
      ((roiA.fdiv vox).containsPoint (cAdd i (roiA.fdiv vox).offset) &&
        (roiB.fdiv vox).containsPoint (cAdd i (roiA.fdiv vox).offset)) := by
    intro i hi
    simp only [Roi.intersect, Roi.end_, Roi.containsPoint]
    exact containsPointGo_inter_shift (roiA.fdiv vox).offset
      (roiA.fdiv vox).shape (roiB.fdiv vox).offset (roiB.fdiv vox).shape i
      (by omega) (by omega) (by omega) (by omega)
  constructor
  · intro i hi
    by_cases hemp : ((roiA.fdiv vox).intersect (roiB.fdiv vox)).isEmpty = true
    · have hfalse : ((roiA.fdiv vox).containsPoint
          (cAdd i (roiA.fdiv vox).offset) &&
          (roiB.fdiv vox).containsPoint (cAdd i (roiA.fdiv vox).offset)) =
          false := by
        rw [← hkey i hi]
        exact containsPointGo_of_empty _ _ _ hemp
      simp only [Scan.fill, hemp, if_true, hfalse, Bool.false_eq_true,
        if_false]
    · have hemp2 : ((roiA.fdiv vox).intersect (roiB.fdiv vox)).isEmpty =
          false := by
        rw [Bool.eq_false_iff]; exact hemp
      simp only [Scan.fill, hemp2, Bool.false_eq_true, if_false,
        Roi.containsPoint]
      exact if_congr (by rw [hkey i hi]; exact Iff.rfl) rfl rfl
  · intro hemp
    simp only [Scan.fill, hemp, if_true]

/-- C8 witness: a concrete fill — the accumulator index (5,1) lies in the
overlap of the two voxel-grid ROIs and receives the chunk value. -/
theorem scan_fill_spec_witness :
    Scan.fill (fun _ => (0 : Int)) (fun _ => 1) ⟨[0, 0], [10, 10]⟩
        ⟨[4, 0], [4, 4]⟩ [1, 1] [5, 1] = 1 := by
  rw [(scan_fill_spec (fun _ => (0 : Int)) (fun _ => 1) ⟨[0, 0], [10, 10]⟩
      ⟨[4, 0], [4, 4]⟩ [1, 1] 2 (by decide) (by decide)).1 [5, 1] rfl]
  rfl

/-- A successful lookup pairs the value with some key of the list. -/
theorem lookupKey_spec_mem {β : Type} (k : Key) (l : List (Key × β)) (v : β)
    (h : lookupKey k l = some v) : ∃ k2, (k2, v) ∈ l := by
  unfold lookupKey at h
  rcases hf : l.find? (fun e => e.1 = k) with _ | e
  · rw [hf] at h; cases h
  · rw [hf] at h
    have hm := List.mem_of_find?_eq_some hf
    refine ⟨e.1, ?_⟩
    have : e.2 = v := by simpa using h
    rwa [← this, Prod.mk.eta]

/-- A bounded ROI found in a dimension-checked spec has the dimensions. -/
theorem lookup_some_dims (D : Nat) (spec : List (Key × Option Roi))
    (hs : ∀ e ∈ spec, specDimsOk D e = true) (k : Key) (bound : Roi)
    (hl : lookupKey k spec = some (some bound)) : bound.hasDims D := by
  rcases lookupKey_spec_mem k spec (some bound) hl with ⟨k2, hmem⟩
  have := hs (k2, some bound) hmem
  simpa [specDimsOk] using this

/-- If one input shape has a non-positive component, so does the shape of
the intersection (all lists of one common dimension). -/
theorem inter_shape_empty :
    ∀ (oa sa ob sb : List Int), oa.length = sa.length →
      oa.length = ob.length → oa.length = sb.length →
      sa.any (fun s => s ≤ 0) = true →
      (cSub (cMin (cAdd oa sa) (cAdd ob sb)) (cMax oa ob)).any
        (fun s => s ≤ 0) = true := by
  intro oa
  induction oa with
  | nil =>
    intro sa ob sb h1 h2 h3 h
    rw [List.length_nil] at h1
    rw [List.eq_nil_of_length_eq_zero h1.symm] at h
    simp at h
  | cons o oas ih =>
    intro sa ob sb h1 h2 h3 h
    rcases sa with _ | ⟨s, sas⟩; · simp at h1
    rcases ob with _ | ⟨p, obs⟩; · simp at h2
    rcases sb with _ | ⟨q, sbs⟩; · simp at h3
    simp only [List.length_cons, Nat.succ.injEq] at h1 h2 h3
    simp only [cAdd_cons, cMin_cons, cMax_cons, cSub_cons, List.any_cons,
      Bool.or_eq_true, decide_eq_true_eq] at h ⊢
    rcases h with h | h
    · left; omega
    · right
      have := ih sas obs sbs h1 h2 h3 (by simpa using h)
      simpa using this

/-- Intersecting with an empty Roi of the same dimension yields an empty
Roi. -/
theorem intersect_isEmpty_left (D : Nat) (a b : Roi) (ha : a.hasDims D)
    (hb : b.hasDims D) (h : a.isEmpty = true) :
    (a.intersect b).isEmpty = true := by
  rcases ha with ⟨ha1, ha2⟩
  rcases hb with ⟨hb1, hb2⟩
  simp only [Roi.isEmpty, Roi.intersect, Roi.end_] at h ⊢
  exact inter_shape_empty a.offset a.shape b.offset b.shape (by omega)
    (by omega) (by omega) h

/-- Intersection preserves the dimension. -/
theorem intersect_hasDims (D : Nat) (a b : Roi) (ha : a.hasDims D)
    (hb : b.hasDims D) : (a.intersect b).hasDims D := by
  rcases ha with ⟨ha1, ha2⟩
  rcases hb with ⟨hb1, hb2⟩
  simp [Roi.intersect, Roi.end_, Roi.hasDims, cAdd, cSub, cMin, cMax,
    ha1, ha2, hb1, hb2]

/-- Folding intersections over an empty accumulator stays empty. -/
theorem foldl_intersect_empty (D : Nat) :
    ∀ (l : List Roi) (t : Roi), (∀ r ∈ l, r.hasDims D) → t.hasDims D →
      t.isEmpty = true → (l.foldl Roi.intersect t).isEmpty = true := by
  intro l
  induction l with
  | nil => intro t _ _ h; simpa using h
  | cons r rest ih =>
    intro t hd ht hE
    rw [List.foldl_cons]
    exact ih (t.intersect r) (fun x hx => hd x (List.mem_cons_of_mem r hx))
      (intersect_hasDims D t r ht (hd r (List.mem_cons_self r rest)))
      (intersect_isEmpty_left D t r ht (hd r (List.mem_cons_self r rest)) hE)

/-- The shift ROI of one stream has the stream's dimension. -/
theorem shiftRoiOf_hasDims (D : Nat) (r b : Roi) (hr : r.hasDims D)
    (hb : b.hasDims D) : (Scan.shiftRoiOf r b).hasDims D := by
  rcases hr with ⟨hr1, hr2⟩
  rcases hb with ⟨hb1, hb2⟩
  simp [Scan.shiftRoiOf, Roi.hasDims, cSub, hr1, hr2, hb1, hb2]

/-- Under the fit assertion the per-stream shift ROI is non-empty: its
shape is `bound.shape - ref.shape + 1 ≥ 1` component-wise. -/
theorem shiftRoiOf_not_empty (D : Nat) (r b : Roi) (hr : r.hasDims D)
    (hb : b.hasDims D) (hfit : Scan.fitsCheck r.shape b.shape = true) :
    (Scan.shiftRoiOf r b).isEmpty = false := by
  rcases hr with ⟨hr1, hr2⟩
  rcases hb with ⟨hb1, hb2⟩
  simp only [Scan.shiftRoiOf, Roi.isEmpty]
  rw [Bool.eq_false_iff]
  intro hc
  rw [List.any_eq_true] at hc
  rcases hc with ⟨x, hx, hxle⟩
  rw [List.mem_iff_getElem] at hx
  rcases hx with ⟨d, hd, hget⟩
  rw [List.getElem_zipWith] at hget
  rw [Scan.fitsCheck, List.all_eq_true] at hfit
  have hdlen : d < (r.shape.zip b.shape).length := by
    rw [List.length_zipWith] at hd
    simp only [List.length_zip]
    omega
  have hpair := hfit (r.shape.zip b.shape)[d] (List.getElem_mem hdlen)
  rw [List.getElem_zip] at hpair
  rw [decide_eq_true_eq] at hpair
  rw [decide_eq_true_eq] at hxle
  omega

/-- Every ROI collected by `boundedShiftRois` has the dimension `D`. -/
theorem boundedShiftRois_dims (D : Nat) (reference : Request)
    (spec : List (Key × Option Roi))
    (hr : ∀ e ∈ reference, e.2.roi.hasDims D)
    (hs : ∀ e ∈ spec, specDimsOk D e = true) :
    ∀ r ∈ Scan.boundedShiftRois reference spec, r.hasDims D := by
  intro r hmem
  rw [Scan.boundedShiftRois, List.mem_filterMap] at hmem
  rcases hmem with ⟨e, hemem, hfe⟩
  rcases hl : lookupKey e.1 spec with _ | ob
  · rw [hl] at hfe; cases hfe
  · rcases ob with _ | bound
    · rw [hl] at hfe; cases hfe
    · rw [hl] at hfe
      have : r = Scan.shiftRoiOf e.2.roi bound := by
        simpa using hfe.symm
      rw [this]
      exact shiftRoiOf_hasDims D e.2.roi bound (hr e hemem)
        (lookup_some_dims D spec hs e.1 bound hl)

/-- `Scan._get_shift_roi`'s loop with a non-empty accumulator computes the
left fold of the remaining bounded shift ROIs, failing with
`UnsatisfiableTiling` exactly when that fold is empty. -/
theorem getShiftRoiGo_some (D : Nat) (spec : List (Key × Option Roi))
    (hs : ∀ e ∈ spec, specDimsOk D e = true) :
    ∀ (reference : Request) (t : Roi),
      (∀ e ∈ reference, e.2.roi.hasDims D) →
      (∀ e ∈ reference, Scan.fitsInSpec spec e = true) →
      t.hasDims D → t.isEmpty = false →
      Scan.getShiftRoiGo spec reference (some t) =
        (if ((Scan.boundedShiftRois reference spec).foldl Roi.intersect
            t).isEmpty = true then
          .error ScanErr.unsatisfiableTiling
        else .ok ((Scan.boundedShiftRois reference spec).foldl
          Roi.intersect t)) := by
  intro reference
  induction reference with
  | nil =>
    intro t _ _ _ htE
    simp [Scan.getShiftRoiGo, Scan.boundedShiftRois, htE]
  | cons e rest ih =>
    intro t hr hf ht htE
    have hrRest : ∀ x ∈ rest, x.2.roi.hasDims D :=
      fun x hx => hr x (List.mem_cons_of_mem e hx)
    have hfRest : ∀ x ∈ rest, Scan.fitsInSpec spec x = true :=
      fun x hx => hf x (List.mem_cons_of_mem e hx)
    rcases hl : lookupKey e.1 spec with _ | ob
    · have hbs : Scan.boundedShiftRois (e :: rest) spec =
          Scan.boundedShiftRois rest spec := by
        simp [Scan.boundedShiftRois, List.filterMap_cons, hl]
      rw [hbs, ← ih t hrRest hfRest ht htE]
      simp [Scan.getShiftRoiGo, hl]
    · rcases ob with _ | bound
      · have hbs : Scan.boundedShiftRois (e :: rest) spec =
            Scan.boundedShiftRois rest spec := by
          simp [Scan.boundedShiftRois, List.filterMap_cons, hl]
        rw [hbs, ← ih t hrRest hfRest ht htE]
        simp [Scan.getShiftRoiGo, hl]
      · have hfit : Scan.fitsCheck e.2.roi.shape bound.shape = true := by
          have := hf e (List.mem_cons_self e rest)
          simpa [Scan.fitsInSpec, hl] using this
        have hbdims : bound.hasDims D := lookup_some_dims D spec hs e.1 bound hl
        have hsrdims : (Scan.shiftRoiOf e.2.roi bound).hasDims D :=
          shiftRoiOf_hasDims D e.2.roi bound (hr e (List.mem_cons_self e rest))
            hbdims
        have hbs : Scan.boundedShiftRois (e :: rest) spec =
            Scan.shiftRoiOf e.2.roi bound :: Scan.boundedShiftRois rest spec := by
          simp [Scan.boundedShiftRois, List.filterMap_cons, hl]
        have ht2dims : (t.intersect (Scan.shiftRoiOf e.2.roi bound)).hasDims D :=
          intersect_hasDims D t _ ht hsrdims
        rw [hbs]
        rw [List.foldl_cons]
        by_cases ht2 : (t.intersect (Scan.shiftRoiOf e.2.roi bound)).isEmpty = true
        · have hfold : ((Scan.boundedShiftRois rest spec).foldl Roi.intersect
              (t.intersect (Scan.shiftRoiOf e.2.roi bound))).isEmpty = true :=
            foldl_intersect_empty D _ _
              (boundedShiftRois_dims D rest spec hrRest hs) ht2dims ht2
          rw [if_pos hfold]
          simp [Scan.getShiftRoiGo, hl, hfit, ht2]
        · have ht2F : (t.intersect (Scan.shiftRoiOf e.2.roi bound)).isEmpty =
              false := by
            rw [Bool.eq_false_iff]; exact ht2
          rw [← ih (t.intersect (Scan.shiftRoiOf e.2.roi bound)) hrRest hfRest
            ht2dims ht2F]
          simp [Scan.getShiftRoiGo, hl, hfit, ht2F]

/-- `Scan._get_shift_roi`'s loop from the initial `None` accumulator:
`NoBoundedStream` when no stream contributes, otherwise the left fold of
the bounded shift ROIs with `UnsatisfiableTiling` on an empty fold. -/
theorem getShiftRoiGo_none (D : Nat) (spec : List (Key × Option Roi))
    (hs : ∀ e ∈ spec, specDimsOk D e = true) :
    ∀ (reference : Request),
      (∀ e ∈ reference, e.2.roi.hasDims D) →
      (∀ e ∈ reference, Scan.fitsInSpec spec e = true) →
      Scan.getShiftRoiGo spec reference none =
        (match Scan.boundedShiftRois reference spec with
         | [] => .error ScanErr.noBoundedStream
         | s0 :: rest =>
           if (rest.foldl Roi.intersect s0).isEmpty = true then
             .error ScanErr.unsatisfiableTiling
           else .ok (rest.foldl Roi.intersect s0)) := by
  intro reference
  induction reference with
  | nil => intro _ _; simp [Scan.getShiftRoiGo, Scan.boundedShiftRois]
  | cons e rest ih =>
    intro hr hf
    have hrRest : ∀ x ∈ rest, x.2.roi.hasDims D :=
      fun x hx => hr x (List.mem_cons_of_mem e hx)
    have hfRest : ∀ x ∈ rest, Scan.fitsInSpec spec x = true :=
      fun x hx => hf x (List.mem_cons_of_mem e hx)
    rcases hl : lookupKey e.1 spec with _ | ob
    · have hbs : Scan.boundedShiftRois (e :: rest) spec =
          Scan.boundedShiftRois rest spec := by
        simp [Scan.boundedShiftRois, List.filterMap_cons, hl]
      rw [hbs, ← ih hrRest hfRest]
      simp [Scan.getShiftRoiGo, hl]
    · rcases ob with _ | bound
      · have hbs : Scan.boundedShiftRois (e :: rest) spec =
            Scan.boundedShiftRois rest spec := by
          simp [Scan.boundedShiftRois, List.filterMap_cons, hl]
        rw [hbs, ← ih hrRest hfRest]
        simp [Scan.getShiftRoiGo, hl]
      · have hfit : Scan.fitsCheck e.2.roi.shape bound.shape = true := by
          have := hf e (List.mem_cons_self e rest)
          simpa [Scan.fitsInSpec, hl] using this
        have hbdims : bound.hasDims D := lookup_some_dims D spec hs e.1 bound hl
        have hsrdims : (Scan.shiftRoiOf e.2.roi bound).hasDims D :=
          shiftRoiOf_hasDims D e.2.roi bound (hr e (List.mem_cons_self e rest))
            hbdims
        have hsrE : (Scan.shiftRoiOf e.2.roi bound).isEmpty = false :=
          shiftRoiOf_not_empty D e.2.roi bound (hr e (List.mem_cons_self e rest))
            hbdims hfit
        have hbs : Scan.boundedShiftRois (e :: rest) spec =
            Scan.shiftRoiOf e.2.roi bound :: Scan.boundedShiftRois rest spec := by
          simp [Scan.boundedShiftRois, List.filterMap_cons, hl]
        rw [hbs]
        simp only [Scan.getShiftRoiGo, hl, hfit]
        exact getShiftRoiGo_some D spec hs rest (Scan.shiftRoiOf e.2.roi bound)
          hrRest hfRest hsrdims hsrE

/-- C4: for every stream present in both the reference and the bounding
spec with a bounded ROI, the shift range is the ROI with offset
`bound.offset - ref.offset` and shape `bound.shape - ref.shape + 1`
(`Scan.shiftRoiOf`), intersected across all such streams in order; the scan
fails with `UnsatisfiableTiling` when this intersection is empty and with
`NoBoundedStream` when no stream supplied a bound; streams absent from the
spec or carrying an unbounded ROI are skipped. -/
theorem scan_get_shift_roi_spec (D : Nat) (reference : Request)
    (spec : List (Key × Option Roi))
    (hr : ∀ e ∈ reference, e.2.roi.hasDims D)
    (hs : ∀ e ∈ spec, specDimsOk D e = true)
    (hf : ∀ e ∈ reference, Scan.fitsInSpec spec e = true) :
    (Scan.boundedShiftRois reference spec = [] →
      Scan.getShiftRoi reference spec = .error ScanErr.noBoundedStream) ∧
    ∀ s0 rest, Scan.boundedShiftRois reference spec = s0 :: rest →
      ((rest.foldl Roi.intersect s0).isEmpty = false →
        Scan.getShiftRoi reference spec = .ok (rest.foldl Roi.intersect s0)) ∧
      ((rest.foldl Roi.intersect s0).isEmpty = true →
        Scan.getShiftRoi reference spec =
          .error ScanErr.unsatisfiableTiling) := by
  have hmain := getShiftRoiGo_none D spec hs reference hr hf
  constructor
  · intro hnil
    rw [hnil] at hmain
    exact hmain
  · intro s0 rest hcons
    rw [hcons] at hmain
    constructor
    · intro hne
      rw [Scan.getShiftRoi, hmain]
      simp [hne]
    · intro he
      rw [Scan.getShiftRoi, hmain]
      simp [he]

/-- C4 witness: in the 2D scenario one stream is bounded and the shift
range is (0,0)–(7,7). -/
theorem scan_get_shift_roi_spec_witness :
    Scan.getShiftRoi exReference exSpec =
      .ok (List.foldl Roi.intersect ⟨[0, 0], [7, 7]⟩ []) :=
  ((scan_get_shift_roi_spec 2 exReference exSpec (by decide) (by decide)
      (by decide)).2 ⟨[0, 0], [7, 7]⟩ [] (by decide)).1 (by decide)

/-- The clamped step advances by at least one and never overshoots. -/
theorem clampAdd_bounds (x st mx : Int) (hst : 1 ≤ st) (hx : x < mx) :
    x + 1 ≤ Scan.clampAdd x st mx ∧ Scan.clampAdd x st mx ≤ mx := by
  unfold Scan.clampAdd
  split <;> omega

/-- Unfolding `seqD` at fuel zero. -/
theorem seqD_zero (mx st x : Int) : Scan.seqD mx st 0 x = [x] := rfl

/-- Unfolding `seqD` at successor fuel. -/
theorem seqD_succ (mx st x : Int) (f : Nat) :
    Scan.seqD mx st (f + 1) x =
      if mx ≤ x then [x]
      else x :: Scan.seqD mx st f (Scan.clampAdd x st mx) := rfl

/-- The last entry of a cons list with a non-empty tail is that of the
tail. -/
theorem getLast?_cons_of_ne_nil {α : Type} (a : α) (l : List α) (h : l ≠ []) :
    (a :: l).getLast? = l.getLast? := by
  cases l with
  | nil => exact absurd rfl h
  | cons b l2 => exact List.getLast?_cons_cons

/-- A per-dimension position list always starts at its start point. -/
theorem seqD_head (mx st : Int) : ∀ (f : Nat) (x : Int),
    (Scan.seqD mx st f x).head? = some x := by
  intro f x
  cases f with
  | zero => rfl
  | succ g =>
    rw [seqD_succ]
    split <;> rfl

/-- A per-dimension position list is never empty. -/
theorem seqD_ne_nil (mx st : Int) : ∀ (f : Nat) (x : Int),
    Scan.seqD mx st f x ≠ [] := by
  intro f x
  cases f with
  | zero => simp [seqD_zero]
  | succ g =>
    rw [seqD_succ]
    split <;> simp

/-- With enough fuel the per-dimension position list does not depend on
the exact fuel. -/
theorem seqD_fuel_congr (mx st : Int) (hst : 1 ≤ st) :
    ∀ (f g : Nat) (x : Int), x ≤ mx → (mx - x).toNat ≤ f →
      (mx - x).toNat ≤ g → Scan.seqD mx st f x = Scan.seqD mx st g x := by
  intro f
  induction f with
  | zero =>
    intro g x hx hf hg
    have hxe : x = mx := by omega
    subst hxe
    cases g with
    | zero => rfl
    | succ g2 => rw [seqD_zero, seqD_succ, if_pos le_rfl]
  | succ f2 ih =>
    intro g x hx hf hg
    by_cases hxe : mx ≤ x
    · have hxx : x = mx := by omega
      subst hxx
      cases g with
      | zero => rw [seqD_zero, seqD_succ, if_pos le_rfl]
      | succ g2 => rw [seqD_succ, seqD_succ, if_pos le_rfl, if_pos le_rfl]
    · have hcl := clampAdd_bounds x st mx hst (by omega)
      cases g with
      | zero => omega
      | succ g2 =>
        rw [seqD_succ, seqD_succ, if_neg hxe, if_neg hxe]
        rw [ih g2 (Scan.clampAdd x st mx) (by omega) (by omega) (by omega)]

/-- With enough fuel the per-dimension position list equals the canonical
complete list. -/
theorem seqD_eq_seqFull (mx st : Int) (hst : 1 ≤ st) (f : Nat) (x : Int)
    (hx : x ≤ mx) (hf : (mx - x).toNat ≤ f) :
    Scan.seqD mx st f x = Scan.seqFull x mx st :=
  seqD_fuel_congr mx st hst f (mx - x).toNat x hx hf le_rfl

/-- With enough fuel the per-dimension position list ends exactly at the
bound. -/
theorem seqD_getLast (mx st : Int) (hst : 1 ≤ st) :
    ∀ (f : Nat) (x : Int), x ≤ mx → (mx - x).toNat ≤ f →
      (Scan.seqD mx st f x).getLast? = some mx := by
  intro f
  induction f with
  | zero =>
    intro x hx hf
    have : x = mx := by omega
    subst this
    rfl
  | succ f2 ih =>
    intro x hx hf
    by_cases hxe : mx ≤ x
    · have hxx : x = mx := by omega
      subst hxx
      rw [seqD_succ, if_pos le_rfl]
      rfl
    · have hcl := clampAdd_bounds x st mx hst (by omega)
      rw [seqD_succ, if_neg hxe,
        getLast?_cons_of_ne_nil _ _ (seqD_ne_nil mx st f2 _)]
      exact ih (Scan.clampAdd x st mx) (by omega) (by omega)

/-- Every element of a per-dimension position list lies between its start
point and the bound. -/
theorem seqD_mem_bounds (mx st : Int) (hst : 1 ≤ st) :
    ∀ (f : Nat) (x y : Int), x ≤ mx → y ∈ Scan.seqD mx st f x →
      x ≤ y ∧ y ≤ mx := by
  intro f
  induction f with
  | zero =>
    intro x y hx hy
    rw [seqD_zero] at hy
    simp only [List.mem_singleton] at hy
    omega
  | succ f2 ih =>
    intro x y hx hy
    rw [seqD_succ] at hy
    by_cases hxe : mx ≤ x
    · rw [if_pos hxe] at hy
      simp only [List.mem_singleton] at hy
      omega
    · rw [if_neg hxe] at hy
      have hcl := clampAdd_bounds x st mx hst (by omega)
      rcases List.mem_cons.mp hy with rfl | hy2
      · omega
      · have := ih (Scan.clampAdd x st mx) y (by omega) hy2
        omega

/-- Fuel bounds the length of a per-dimension position list. -/
theorem seqD_length (mx st : Int) : ∀ (f : Nat) (x : Int),
    (Scan.seqD mx st f x).length ≤ f + 1 := by
  intro f
  induction f with
  | zero => intro x; simp [seqD_zero]
  | succ f2 ih =>
    intro x
    rw [seqD_succ]
    split
    · simp
    · simpa using Nat.succ_le_succ (ih (Scan.clampAdd x st mx))

/-- Unfolding `bumpShift` on cons cells. -/
theorem bumpShift_cons (x a b s : Int) (xs mns mxs sts : Coord) :
    Scan.bumpShift (x :: xs) (a :: mns) (b :: mxs) (s :: sts) =
      if b ≤ x then
        if xs.isEmpty then x :: xs
        else a :: Scan.bumpShift xs mns mxs sts
      else Scan.clampAdd x s b :: xs := rfl

/-- Unfolding `idealFrom` on cons cells. -/
theorem idealFrom_cons (a b s x : Int) (mns mxs sts r : Coord) :
    Scan.idealFrom (a :: mns) (b :: mxs) (s :: sts) (x :: r) =
      (Scan.seqFull x b s).map (fun y => y :: r) ++
        (Scan.idealFrom mns mxs sts r).tail.flatMap
          (fun q => (Scan.seqFull a b s).map (fun y => y :: q)) := rfl

/-- `idealFrom` on the zero-dimensional problem. -/
theorem idealFrom_nil (mx st sh : Coord) :
    Scan.idealFrom [] mx st sh = [[]] := rfl

/-- The bumped shift stays within the per-dimension bounds. -/
theorem bumpShift_within :
    ∀ (mn mx st sh : Coord),
      mn.length = st.length → (∀ s2 ∈ st, 1 ≤ s2) →
      List.Forall₂ (· ≤ ·) mn sh → List.Forall₂ (· ≤ ·) sh mx → sh ≠ mx →
      List.Forall₂ (· ≤ ·) mn (Scan.bumpShift sh mn mx st) ∧
        List.Forall₂ (· ≤ ·) (Scan.bumpShift sh mn mx st) mx := by
  intro mn
  induction mn with
  | nil =>
    intro mx st sh _ _ h1 h2 hne
    have hsh : sh = [] := List.forall₂_nil_left_iff.mp h1
    subst hsh
    have hmx : mx = [] := List.forall₂_nil_left_iff.mp h2
    exact absurd hmx.symm hne
  | cons a mns ih =>
    intro mx st sh hlen hst h1 h2 hne
    rcases sh with _ | ⟨x, shs⟩
    · exact absurd (List.Forall₂.length_eq h1) (by simp)
    rcases mx with _ | ⟨b, mxs⟩
    · exact absurd (List.Forall₂.length_eq h2) (by simp)
    rcases st with _ | ⟨s, sts⟩
    · simp at hlen
    rw [List.forall₂_cons] at h1 h2
    obtain ⟨hax, h1t⟩ := h1
    obtain ⟨hxb, h2t⟩ := h2
    simp only [List.length_cons, Nat.succ.injEq] at hlen
    have hspos : 1 ≤ s := hst s (List.mem_cons_self s sts)
    have hstt : ∀ s2 ∈ sts, 1 ≤ s2 :=
      fun s2 hs2 => hst s2 (List.mem_cons_of_mem s hs2)
    rw [bumpShift_cons]
    by_cases hbx : b ≤ x
    · have hxe : x = b := by omega
      subst hxe
      by_cases hse : shs.isEmpty = true
      · have hshs : shs = [] := List.isEmpty_iff.mp hse
        subst hshs
        have hmxs : mxs = [] := List.forall₂_nil_left_iff.mp h2t
        subst hmxs
        exact absurd rfl hne
      · rw [if_pos le_rfl, if_neg hse]
        have hr : shs ≠ mxs := by
          intro hc
          exact hne (by rw [hc])
        have hIH := ih mxs sts shs hlen hstt h1t h2t hr
        exact ⟨List.Forall₂.cons le_rfl hIH.1,
          List.Forall₂.cons hax hIH.2⟩
    · rw [if_neg hbx]
      have hcl := clampAdd_bounds x s b hspos (by omega)
      exact ⟨List.Forall₂.cons (by omega) h1t,
        List.Forall₂.cons (by omega) h2t⟩

/-- `idealFrom` is never empty. -/
theorem idealFrom_ne_nil :
    ∀ (mn mx st sh : Coord), Scan.idealFrom mn mx st sh ≠ [] := by
  intro mn mx st sh
  rcases mn with _ | ⟨a, mns⟩
  · simp [idealFrom_nil]
  rcases mx with _ | ⟨b, mxs⟩
  · simp [Scan.idealFrom]
  rcases st with _ | ⟨s, sts⟩
  · simp [Scan.idealFrom]
  rcases sh with _ | ⟨x, r⟩
  · simp [Scan.idealFrom]
  rw [idealFrom_cons]
  intro hcontra
  rcases List.append_eq_nil.mp hcontra with ⟨hmap, _⟩
  exact seqD_ne_nil b s _ x (List.map_eq_nil_iff.mp hmap)

/-- The ideal enumeration unfolds exactly like the loop of
`Scan._enumerate_shifts`: emit the current shift, stop at `max_shift`,
otherwise continue from the bumped shift. -/
theorem idealFrom_unfold :
    ∀ (mn mx st sh : Coord),
      mn.length = st.length → (∀ s2 ∈ st, 1 ≤ s2) →
      List.Forall₂ (· ≤ ·) mn sh → List.Forall₂ (· ≤ ·) sh mx →
      Scan.idealFrom mn mx st sh =
        sh :: (if sh = mx then []
          else Scan.idealFrom mn mx st (Scan.bumpShift sh mn mx st)) := by
  intro mn
  induction mn with
  | nil =>
    intro mx st sh hlen _ h1 h2
    have hsh : sh = [] := List.forall₂_nil_left_iff.mp h1
    subst hsh
    have hmx : mx = [] := List.forall₂_nil_left_iff.mp h2
    subst hmx
    rw [if_pos rfl, idealFrom_nil]
  | cons a mns ih =>
    intro mx st sh hlen hst h1 h2
    rcases sh with _ | ⟨x, shs⟩
    · exact absurd (List.Forall₂.length_eq h1) (by simp)
    rcases mx with _ | ⟨b, mxs⟩
    · exact absurd (List.Forall₂.length_eq h2) (by simp)
    rcases st with _ | ⟨s, sts⟩
    · simp at hlen
    rw [List.forall₂_cons] at h1 h2
    obtain ⟨hax, h1t⟩ := h1
    obtain ⟨hxb, h2t⟩ := h2
    simp only [List.length_cons, Nat.succ.injEq] at hlen
    have hspos : 1 ≤ s := hst s (List.mem_cons_self s sts)
    have hstt : ∀ s2 ∈ sts, 1 ≤ s2 :=
      fun s2 hs2 => hst s2 (List.mem_cons_of_mem s hs2)
    rw [idealFrom_cons]
    by_cases hxe : x = b
    · subst hxe
      have hsf : Scan.seqFull x x s = [x] := by
        show Scan.seqD x s (x - x).toNat x = [x]
        have h0 : (x - x).toNat = 0 := by omega
        rw [h0, seqD_zero]
      rw [hsf]
      simp only [List.map_cons, List.map_nil, List.singleton_append]
      have hUt := ih mxs sts shs hlen hstt h1t h2t
      by_cases hr : shs = mxs
      · rw [hUt, if_pos hr]
        simp only [List.tail_cons, List.flatMap_nil, List.append_nil]
        rw [if_pos (by rw [hr])]
      · rw [hUt, if_neg hr]
        simp only [List.tail_cons]
        have hne2 : (x :: shs) ≠ (x :: mxs) := by
          intro hc
          injection hc with _ hc2
          exact hr hc2
        rw [if_neg hne2]
        rw [bumpShift_cons, if_pos le_rfl]
        have hcond : ¬ (shs.isEmpty = true) := by
          intro hc
          have hshs : shs = [] := List.isEmpty_iff.mp hc
          subst hshs
          exact hr (List.forall₂_nil_left_iff.mp h2t).symm
        rw [if_neg hcond]
        rw [idealFrom_cons]
        have hW := bumpShift_within mns mxs sts shs hlen hstt h1t h2t hr
        have hUb := ih mxs sts (Scan.bumpShift shs mns mxs sts) hlen hstt
          hW.1 hW.2
        rw [hUb]
        simp only [List.flatMap_cons, List.tail_cons]
    · have hxlt : x < b := lt_of_le_of_ne hxb hxe
      have hcl := clampAdd_bounds x s b hspos hxlt
      have hsf : Scan.seqFull x b s =
          x :: Scan.seqFull (Scan.clampAdd x s b) b s := by
        show Scan.seqD b s (b - x).toNat x = _
        rcases hk : (b - x).toNat with _ | k
        · omega
        · rw [seqD_succ, if_neg (by omega)]
          rw [seqD_eq_seqFull b s hspos k _ (by omega) (by omega)]
      rw [hsf]
      rw [List.map_cons, List.cons_append]
      have hneq : (x :: shs) ≠ (b :: mxs) := by
        intro hc
        injection hc with hc1 _
        exact hxe hc1
      rw [if_neg hneq]
      rw [bumpShift_cons, if_neg (by omega)]
      rw [idealFrom_cons]

/-- Unfolding `enumShiftsAux` at fuel zero. -/
theorem enumShiftsAux_zero (mn mx st sh : Coord) :
    Scan.enumShiftsAux mn mx st 0 sh = [sh] := rfl

/-- Unfolding `enumShiftsAux` at successor fuel. -/
theorem enumShiftsAux_succ (mn mx st sh : Coord) (f : Nat) :
    Scan.enumShiftsAux mn mx st (f + 1) sh =
      if sh = mx then [sh]
      else sh :: Scan.enumShiftsAux mn mx st f (Scan.bumpShift sh mn mx st) := rfl

/-- The enumeration loop always emits the starting shift first. -/
theorem enumShiftsAux_head (mn mx st : Coord) (f : Nat) (sh : Coord) :
    (Scan.enumShiftsAux mn mx st f sh).head? = some sh := by
  cases f with
  | zero => rfl
  | succ f2 =>
    rw [enumShiftsAux_succ]
    split <;> rfl

/-- Reflexivity of the component-wise order. -/
theorem forall₂_le_refl : ∀ l : Coord, List.Forall₂ (· ≤ ·) l l := by
  intro l
  induction l with
  | nil => exact List.Forall₂.nil
  | cons a t ih => exact List.Forall₂.cons le_rfl ih

/-- The ideal enumeration fits in the fuel budget of
`Scan.enumerateShifts`. -/
theorem idealFrom_length_le :
    ∀ (mn mx st sh : Coord),
      mn.length = st.length → (∀ s2 ∈ st, 1 ≤ s2) →
      List.Forall₂ (· ≤ ·) mn sh → List.Forall₂ (· ≤ ·) sh mx →
      (Scan.idealFrom mn mx st sh).length ≤ Scan.fuelFor mn mx := by
  intro mn
  induction mn with
  | nil =>
    intro mx st sh _ _ h1 h2
    have hsh : sh = [] := List.forall₂_nil_left_iff.mp h1
    subst hsh
    have hmx : mx = [] := List.forall₂_nil_left_iff.mp h2
    subst hmx
    simp [idealFrom_nil, Scan.fuelFor]
  | cons a mns ih =>
    intro mx st sh hlen hst h1 h2
    rcases sh with _ | ⟨x, shs⟩
    · exact absurd (List.Forall₂.length_eq h1) (by simp)
    rcases mx with _ | ⟨b, mxs⟩
    · exact absurd (List.Forall₂.length_eq h2) (by simp)
    rcases st with _ | ⟨s, sts⟩
    · simp at hlen
    rw [List.forall₂_cons] at h1 h2
    obtain ⟨hax, h1t⟩ := h1
    obtain ⟨hxb, h2t⟩ := h2
    simp only [List.length_cons, Nat.succ.injEq] at hlen
    have hstt : ∀ s2 ∈ sts, 1 ≤ s2 :=
      fun s2 hs2 => hst s2 (List.mem_cons_of_mem s hs2)
    have hfuel : Scan.fuelFor (a :: mns) (b :: mxs) =
        ((b - a).toNat + 1) * Scan.fuelFor mns mxs := by
      rw [Scan.fuelFor, Scan.fuelFor, List.zipWith_cons_cons, List.prod_cons]
    rw [idealFrom_cons, List.length_append, List.length_map, hfuel]
    have hb1 : (Scan.seqFull x b s).length ≤ (b - a).toNat + 1 := by
      have := seqD_length b s (b - x).toNat x
      have hto : (b - x).toNat ≤ (b - a).toNat := by omega
      calc (Scan.seqFull x b s).length ≤ (b - x).toNat + 1 := this
        _ ≤ (b - a).toNat + 1 := by omega
    have hb2 : ((Scan.idealFrom mns mxs sts shs).tail.flatMap
        (fun q => (Scan.seqFull a b s).map (fun y => y :: q))).length ≤
        (Scan.idealFrom mns mxs sts shs).tail.length * ((b - a).toNat + 1) := by
      rw [List.length_flatMap]
      have hone : ∀ n ∈ (Scan.idealFrom mns mxs sts shs).tail.map
          ((fun l => l.length) ∘ (fun q => (Scan.seqFull a b s).map
            (fun y => y :: q))), n ≤ (b - a).toNat + 1 := by
        intro n hn
        rw [List.mem_map] at hn
        rcases hn with ⟨q, _, rfl⟩
        simp only [Function.comp_apply, List.length_map]
        have := seqD_length b s (b - a).toNat a
        exact this
      have := List.sum_le_card_nsmul _ _ hone
      simpa [List.length_map, Nat.smul_one_eq_cast] using this
    have htail : (Scan.idealFrom mns mxs sts shs).tail.length + 1 =
        (Scan.idealFrom mns mxs sts shs).length := by
      have hne2 := idealFrom_ne_nil mns mxs sts shs
      rw [List.length_tail]
      have : 1 ≤ (Scan.idealFrom mns mxs sts shs).length :=
        List.length_pos.mpr hne2
      omega
    have hrest : (Scan.idealFrom mns mxs sts shs).length ≤
        Scan.fuelFor mns mxs := ih mxs sts shs hlen hstt h1t h2t
    calc (Scan.seqFull x b s).length +
        ((Scan.idealFrom mns mxs sts shs).tail.flatMap
          (fun q => (Scan.seqFull a b s).map (fun y => y :: q))).length
        ≤ ((b - a).toNat + 1) +
          (Scan.idealFrom mns mxs sts shs).tail.length *
            ((b - a).toNat + 1) := Nat.add_le_add hb1 hb2
      _ = ((Scan.idealFrom mns mxs sts shs).tail.length + 1) *
            ((b - a).toNat + 1) := by ring
      _ ≤ Scan.fuelFor mns mxs * ((b - a).toNat + 1) := by
            apply Nat.mul_le_mul_right
            omega
      _ = ((b - a).toNat + 1) * Scan.fuelFor mns mxs := Nat.mul_comm _ _

/-- With enough fuel the enumeration loop computes the ideal
enumeration. -/
theorem enumShiftsAux_eq_idealFrom (mn mx st : Coord)
    (hlen : mn.length = st.length) (hst : ∀ s2 ∈ st, 1 ≤ s2) :
    ∀ (f : Nat) (sh : Coord),
      List.Forall₂ (· ≤ ·) mn sh → List.Forall₂ (· ≤ ·) sh mx →
      (Scan.idealFrom mn mx st sh).length ≤ f + 1 →
      Scan.enumShiftsAux mn mx st f sh = Scan.idealFrom mn mx st sh := by
  intro f
  induction f with
  | zero =>
    intro sh h1 h2 hlenf
    have hU := idealFrom_unfold mn mx st sh hlen hst h1 h2
    by_cases he : sh = mx
    · rw [hU, if_pos he, enumShiftsAux_zero]
    · rw [hU, if_neg he] at hlenf
      exfalso
      rcases hX : Scan.idealFrom mn mx st (Scan.bumpShift sh mn mx st) with
        _ | ⟨y, ys⟩
      · exact idealFrom_ne_nil mn mx st _ hX
      · rw [hX] at hlenf
        simp at hlenf
  | succ f2 ih =>
    intro sh h1 h2 hlenf
    have hU := idealFrom_unfold mn mx st sh hlen hst h1 h2
    by_cases he : sh = mx
    · rw [hU, if_pos he, enumShiftsAux_succ, if_pos he]
    · have hW := bumpShift_within mn mx st sh hlen hst h1 h2 he
      rw [hU, if_neg he] at hlenf ⊢
      rw [enumShiftsAux_succ, if_neg he]
      congr 1
      apply ih _ hW.1 hW.2
      simpa using hlenf

/-- Unfolding `dimSeqs` on cons cells. -/
theorem dimSeqs_cons (a b s : Int) (mns mxs sts : Coord) :
    Scan.dimSeqs (a :: mns) (b :: mxs) (s :: sts) =
      Scan.seqFull a b s :: Scan.dimSeqs mns mxs sts := rfl

/-- Unfolding `prodShifts` on cons cells. -/
theorem prodShifts_cons (p : List Int) (ps : List (List Int)) :
    Scan.prodShifts (p :: ps) =
      (Scan.prodShifts ps).flatMap (fun r => p.map (fun x => x :: r)) := rfl

/-- Starting the ideal enumeration at the minimum shift yields the full
cartesian product of the per-dimension position lists, first dimension
fastest. -/
theorem idealFrom_at_min :
    ∀ (mn mx st : Coord), mn.length = st.length → (∀ s2 ∈ st, 1 ≤ s2) →
      List.Forall₂ (· ≤ ·) mn mx →
      Scan.idealFrom mn mx st mn =
        Scan.prodShifts (Scan.dimSeqs mn mx st) := by
  intro mn
  induction mn with
  | nil =>
    intro mx st hlen _ h
    have hmx : mx = [] := List.forall₂_nil_left_iff.mp h
    have hst0 : st = [] := List.eq_nil_of_length_eq_zero hlen.symm
    subst hmx
    subst hst0
    rfl
  | cons a mns ih =>
    intro mx st hlen hst h
    rcases mx with _ | ⟨b, mxs⟩
    · exact absurd (List.Forall₂.length_eq h) (by simp)
    rcases st with _ | ⟨s, sts⟩
    · simp at hlen
    rw [List.forall₂_cons] at h
    obtain ⟨hab, ht⟩ := h
    simp only [List.length_cons, Nat.succ.injEq] at hlen
    have hstt : ∀ s2 ∈ sts, 1 ≤ s2 :=
      fun s2 hs2 => hst s2 (List.mem_cons_of_mem s hs2)
    rw [idealFrom_cons, dimSeqs_cons, prodShifts_cons,
      ← ih mxs sts hlen hstt ht]
    have hUr := idealFrom_unfold mns mxs sts mns hlen hstt
      (forall₂_le_refl mns) ht
    rw [hUr]
    simp only [List.flatMap_cons, List.tail_cons]

/-- Membership in the product is component-wise membership in the
per-dimension lists. -/
theorem prodShifts_mem :
    ∀ (ls : List (List Int)) (sh : Coord),
      sh ∈ Scan.prodShifts ls ↔
        List.Forall₂ (fun x p => x ∈ p) sh ls := by
  intro ls
  induction ls with
  | nil =>
    intro sh
    constructor
    · intro h
      simp only [Scan.prodShifts, List.mem_singleton] at h
      subst h
      exact List.Forall₂.nil
    · intro h
      have : sh = [] := List.forall₂_nil_right_iff.mp h
      subst this
      simp [Scan.prodShifts]
  | cons p ps ih =>
    intro sh
    rw [prodShifts_cons, List.mem_flatMap]
    constructor
    · rintro ⟨r, hr, hm⟩
      rw [List.mem_map] at hm
      rcases hm with ⟨x, hx, rfl⟩
      exact List.Forall₂.cons hx ((ih r).mp hr)
    · intro h
      rcases sh with _ | ⟨y, ys⟩
      · exact absurd (List.Forall₂.length_eq h) (by simp)
      rw [List.forall₂_cons] at h
      exact ⟨ys, (ih ys).mpr h.2, List.mem_map.mpr ⟨y, h.1, rfl⟩⟩

/-- The last element of a flat map is the last element of the image of the
last element, when every image is non-empty. -/
theorem flatMap_getLast? {α β : Type} (f : α → List β) :
    ∀ (l : List α) (a : α), l.getLast? = some a → (∀ b ∈ l, f b ≠ []) →
      (l.flatMap f).getLast? = (f a).getLast? := by
  intro l
  induction l with
  | nil => intro a h _; cases h
  | cons c t ih =>
    intro a h hne
    rcases t with _ | ⟨d, t2⟩
    · have hac : c = a := by simpa using h
      subst hac
      simp [List.flatMap_cons]
    · rw [List.flatMap_cons]
      have hXne : (d :: t2).flatMap f ≠ [] := by
        rw [List.flatMap_cons]
        intro hc
        rcases List.append_eq_nil.mp hc with ⟨h1, _⟩
        exact hne d (by simp) h1
      rw [List.getLast?_append_of_ne_nil _ hXne]
      refine ih a ?_ (fun b hb => hne b (List.mem_cons_of_mem c hb))
      rw [← h]
      exact (getLast?_cons_of_ne_nil c (d :: t2) (by simp)).symm

/-- The last element of the product is the vector of the per-dimension
last elements. -/
theorem prodShifts_getLast :
    ∀ (ls : List (List Int)) (mxs : List Int),
      List.Forall₂ (fun sq y => sq.getLast? = some y) ls mxs →
      (Scan.prodShifts ls).getLast? = some mxs := by
  intro ls
  induction ls with
  | nil =>
    intro mxs h
    have : mxs = [] := List.forall₂_nil_left_iff.mp h
    subst this
    rfl
  | cons sq ls2 ih =>
    intro mxs h
    rcases mxs with _ | ⟨y, mys⟩
    · exact absurd (List.Forall₂.length_eq h) (by simp)
    rw [List.forall₂_cons] at h
    obtain ⟨hsq, ht⟩ := h
    have hsqne : sq ≠ [] := by
      intro hc
      subst hc
      cases hsq
    rw [prodShifts_cons,
      flatMap_getLast? _ (Scan.prodShifts ls2) mys (ih mys ht)
        (fun r _ => by
          intro hc
          exact hsqne (List.map_eq_nil_iff.mp hc)),
      List.getLast?_map, hsq]
    rfl

/-- Per-dimension properties of the position lists: each starts at the
shift range's offset, ends exactly at the last valid offset, and stays
within those bounds. -/
theorem dimSeqs_props :
    ∀ (mn mx st : Coord), mn.length = st.length → (∀ s2 ∈ st, 1 ≤ s2) →
      List.Forall₂ (· ≤ ·) mn mx →
      List.Forall₂ (fun sq bounds => sq.head? = some bounds.1 ∧
          sq.getLast? = some bounds.2 ∧
          ∀ x ∈ sq, bounds.1 ≤ x ∧ x ≤ bounds.2)
        (Scan.dimSeqs mn mx st) (mn.zip mx) := by
  intro mn
  induction mn with
  | nil =>
    intro mx st _ _ h
    have hmx : mx = [] := List.forall₂_nil_left_iff.mp h
    subst hmx
    exact List.Forall₂.nil
  | cons a mns ih =>
    intro mx st hlen hst h
    rcases mx with _ | ⟨b, mxs⟩
    · exact absurd (List.Forall₂.length_eq h) (by simp)
    rcases st with _ | ⟨s, sts⟩
    · simp at hlen
    rw [List.forall₂_cons] at h
    obtain ⟨hab, ht⟩ := h
    simp only [List.length_cons, Nat.succ.injEq] at hlen
    have hspos : 1 ≤ s := hst s (List.mem_cons_self s sts)
    have hstt : ∀ s2 ∈ sts, 1 ≤ s2 :=
      fun s2 hs2 => hst s2 (List.mem_cons_of_mem s hs2)
    rw [dimSeqs_cons, List.zip_cons_cons]
    refine List.Forall₂.cons ⟨seqD_head b s _ a,
      seqD_getLast b s hspos _ a hab le_rfl, ?_⟩
      (ih mxs sts hlen hstt ht)
    intro x hx
    exact seqD_mem_bounds b s hspos _ a x hab hx

/-- Each per-dimension position list ends exactly at its bound. -/
theorem dimSeqs_lasts :
    ∀ (mn mx st : Coord), mn.length = st.length → (∀ s2 ∈ st, 1 ≤ s2) →
      List.Forall₂ (· ≤ ·) mn mx →
      List.Forall₂ (fun sq y => sq.getLast? = some y)
        (Scan.dimSeqs mn mx st) mx := by
  intro mn
  induction mn with
  | nil =>
    intro mx st _ _ h
    have hmx : mx = [] := List.forall₂_nil_left_iff.mp h
    subst hmx
    exact List.Forall₂.nil
  | cons a mns ih =>
    intro mx st hlen hst h
    rcases mx with _ | ⟨b, mxs⟩
    · exact absurd (List.Forall₂.length_eq h) (by simp)
    rcases st with _ | ⟨s, sts⟩
    · simp at hlen
    rw [List.forall₂_cons] at h
    obtain ⟨hab, ht⟩ := h
    simp only [List.length_cons, Nat.succ.injEq] at hlen
    have hspos : 1 ≤ s := hst s (List.mem_cons_self s sts)
    have hstt : ∀ s2 ∈ sts, 1 ≤ s2 :=
      fun s2 hs2 => hst s2 (List.mem_cons_of_mem s hs2)
    rw [dimSeqs_cons]
    exact List.Forall₂.cons (seqD_getLast b s hspos _ a hab le_rfl)
      (ih mxs sts hlen hstt ht)

/-- Component-wise membership in the position lists bounds the shift
between the range's offset and last valid offset. -/
theorem forall₂_mem_bounds :
    ∀ (mn mx st sh : Coord), mn.length = st.length →
      (∀ s2 ∈ st, 1 ≤ s2) → List.Forall₂ (· ≤ ·) mn mx →
      List.Forall₂ (fun x p => x ∈ p) sh (Scan.dimSeqs mn mx st) →
      List.Forall₂ (· ≤ ·) mn sh ∧ List.Forall₂ (· ≤ ·) sh mx := by
  intro mn
  induction mn with
  | nil =>
    intro mx st sh _ _ h hm
    have hmx : mx = [] := List.forall₂_nil_left_iff.mp h
    subst hmx
    have hsh : sh = [] := List.forall₂_nil_right_iff.mp hm
    subst hsh
    exact ⟨List.Forall₂.nil, List.Forall₂.nil⟩
  | cons a mns ih =>
    intro mx st sh hlen hst h hm
    rcases mx with _ | ⟨b, mxs⟩
    · exact absurd (List.Forall₂.length_eq h) (by simp)
    rcases st with _ | ⟨s, sts⟩
    · simp at hlen
    rw [List.forall₂_cons] at h
    obtain ⟨hab, ht⟩ := h
    simp only [List.length_cons, Nat.succ.injEq] at hlen
    have hspos : 1 ≤ s := hst s (List.mem_cons_self s sts)
    have hstt : ∀ s2 ∈ sts, 1 ≤ s2 :=
      fun s2 hs2 => hst s2 (List.mem_cons_of_mem s hs2)
    rw [dimSeqs_cons] at hm
    rcases sh with _ | ⟨y, ys⟩
    · exact absurd (List.Forall₂.length_eq hm) (by simp)
    rw [List.forall₂_cons] at hm
    obtain ⟨hy, hmt⟩ := hm
    have hyb := seqD_mem_bounds b s hspos _ a y hab hy
    have hIH := ih mxs sts ys hlen hstt ht hmt
    exact ⟨List.Forall₂.cons hyb.1 hIH.1, List.Forall₂.cons hyb.2 hIH.2⟩

/-- Component-wise max with a smaller vector is the identity. -/
theorem cMax_eq_of_le :
    ∀ (a b : Coord), List.Forall₂ (· ≤ ·) a b → cMax a b = b := by
  intro a b h
  induction h with
  | nil => rfl
  | cons hab _ ih => rw [cMax_cons, max_eq_right hab, ih]

/-- The shift range's offset is bounded by its last valid offset when all
shape components are positive. -/
theorem offset_le_endm1 :
    ∀ (off shape : Coord), off.length = shape.length →
      (∀ c ∈ shape, 1 ≤ c) →
      List.Forall₂ (· ≤ ·) off ((cAdd off shape).map (fun m => m - 1)) := by
  intro off
  induction off with
  | nil =>
    intro shape hlen _
    have : shape = [] := List.eq_nil_of_length_eq_zero hlen.symm
    subst this
    exact List.Forall₂.nil
  | cons o os ih =>
    intro shape hlen hpos
    rcases shape with _ | ⟨c, cs⟩
    · simp at hlen
    simp only [List.length_cons, Nat.succ.injEq] at hlen
    have hc : 1 ≤ c := hpos c (List.mem_cons_self c cs)
    rw [cAdd_cons, List.map_cons]
    exact List.Forall₂.cons (by omega)
      (ih cs hlen (fun x hx => hpos x (List.mem_cons_of_mem c hx)))

/-- C2: for every non-empty shift ROI and stride with strictly positive
components, `Scan._enumerate_shifts` produces exactly the cartesian
product of the per-dimension clamped position lists (first dimension
fastest); the enumeration starts at the shift ROI's offset, its last
element is exactly the vector of last valid offsets (`end - 1`), no
produced shift exceeds that bound in any dimension, and each per-dimension
position list starts at the offset, ends exactly at the last valid offset
and stays within those bounds — so every point of the covering set is
visited and the final step is clamped, never overshooting. -/
theorem scan_enumerate_shifts_spec (roi : Roi) (stride : Coord) (D : Nat)
    (hoff : roi.offset.length = D) (hshp : roi.shape.length = D)
    (hstl : stride.length = D) (hpos : ∀ s ∈ stride, 1 ≤ s)
    (hne : ∀ c ∈ roi.shape, 1 ≤ c) :
    Scan.enumerateShifts roi stride =
      Scan.prodShifts (Scan.dimSeqs roi.offset
        (roi.end_.map (fun m => m - 1)) stride) ∧
    (Scan.enumerateShifts roi stride).head? = some roi.offset ∧
    (Scan.enumerateShifts roi stride).getLast? =
      some (roi.end_.map (fun m => m - 1)) ∧
    (∀ sh2 ∈ Scan.enumerateShifts roi stride,
      List.Forall₂ (· ≤ ·) roi.offset sh2 ∧
      List.Forall₂ (· ≤ ·) sh2 (roi.end_.map (fun m => m - 1))) ∧
    List.Forall₂ (fun sq bounds => sq.head? = some bounds.1 ∧
        sq.getLast? = some bounds.2 ∧ ∀ x ∈ sq, bounds.1 ≤ x ∧ x ≤ bounds.2)
      (Scan.dimSeqs roi.offset (roi.end_.map (fun m => m - 1)) stride)
      (roi.offset.zip (roi.end_.map (fun m => m - 1))) := by
  have hmnmx : List.Forall₂ (· ≤ ·) roi.offset
      (roi.end_.map (fun m => m - 1)) :=
    offset_le_endm1 roi.offset roi.shape (by omega) hne
  have hlen : roi.offset.length = stride.length := by omega
  have henum : Scan.enumerateShifts roi stride =
      Scan.enumShiftsAux roi.offset (roi.end_.map (fun m => m - 1)) stride
        (Scan.fuelFor roi.offset (roi.end_.map (fun m => m - 1)))
        roi.offset := by
    show Scan.enumShiftsAux roi.offset
        (cMax roi.offset (roi.end_.map (fun m => m - 1))) stride
        (Scan.fuelFor roi.offset
          (cMax roi.offset (roi.end_.map (fun m => m - 1))))
        roi.offset = _
    rw [cMax_eq_of_le _ _ hmnmx]
  have hideal : Scan.enumShiftsAux roi.offset
      (roi.end_.map (fun m => m - 1)) stride
      (Scan.fuelFor roi.offset (roi.end_.map (fun m => m - 1)))
      roi.offset =
      Scan.idealFrom roi.offset (roi.end_.map (fun m => m - 1)) stride
        roi.offset := by
    apply enumShiftsAux_eq_idealFrom _ _ _ hlen hpos _ _
      (forall₂_le_refl roi.offset) hmnmx
    have := idealFrom_length_le roi.offset (roi.end_.map (fun m => m - 1))
      stride roi.offset hlen hpos (forall₂_le_refl roi.offset) hmnmx
    omega
  have hprod := idealFrom_at_min roi.offset (roi.end_.map (fun m => m - 1))
    stride hlen hpos hmnmx
  refine ⟨by rw [henum, hideal, hprod], ?_, ?_, ?_, ?_⟩
  · rw [henum]
    exact enumShiftsAux_head _ _ _ _ _
  · rw [henum, hideal, hprod]
    exact prodShifts_getLast _ _
      (dimSeqs_lasts roi.offset (roi.end_.map (fun m => m - 1)) stride hlen
        hpos hmnmx)
  · intro sh2 hmem
    rw [henum, hideal, hprod] at hmem
    exact forall₂_mem_bounds roi.offset (roi.end_.map (fun m => m - 1))
      stride sh2 hlen hpos hmnmx ((prodShifts_mem _ sh2).mp hmem)
  · exact dimSeqs_props roi.offset (roi.end_.map (fun m => m - 1)) stride
      hlen hpos hmnmx

/-- C2 witness: the 2D shift ROI (0,0)–(7,7) with stride (4,4). -/
theorem scan_enumerate_shifts_spec_witness :
    Scan.enumerateShifts ⟨[0, 0], [7, 7]⟩ [4, 4] =
      Scan.prodShifts (Scan.dimSeqs (Roi.mk [0, 0] [7, 7]).offset
        ((Roi.mk [0, 0] [7, 7]).end_.map (fun m => m - 1)) [4, 4]) ∧
    (Scan.enumerateShifts ⟨[0, 0], [7, 7]⟩ [4, 4]).head? =
      some (Roi.mk [0, 0] [7, 7]).offset ∧
    (Scan.enumerateShifts ⟨[0, 0], [7, 7]⟩ [4, 4]).getLast? =
      some ((Roi.mk [0, 0] [7, 7]).end_.map (fun m => m - 1)) ∧
    (∀ sh2 ∈ Scan.enumerateShifts ⟨[0, 0], [7, 7]⟩ [4, 4],
      List.Forall₂ (· ≤ ·) (Roi.mk [0, 0] [7, 7]).offset sh2 ∧
      List.Forall₂ (· ≤ ·) sh2
        ((Roi.mk [0, 0] [7, 7]).end_.map (fun m => m - 1))) ∧
    List.Forall₂ (fun sq bounds => sq.head? = some bounds.1 ∧
        sq.getLast? = some bounds.2 ∧ ∀ x ∈ sq, bounds.1 ≤ x ∧ x ≤ bounds.2)
      (Scan.dimSeqs (Roi.mk [0, 0] [7, 7]).offset
        ((Roi.mk [0, 0] [7, 7]).end_.map (fun m => m - 1)) [4, 4])
      ((Roi.mk [0, 0] [7, 7]).offset.zip
        ((Roi.mk [0, 0] [7, 7]).end_.map (fun m => m - 1))) :=
  scan_enumerate_shifts_spec ⟨[0, 0], [7, 7]⟩ [4, 4] 2 rfl rfl rfl
    (by decide) (by decide)

/-- C3: scanning the 2D scenario (request (0,0)–(10,10), reference window
(4,4), voxel size (1,1), one worker) issues exactly nine sub-requests —
three positions per axis with the last clamped to offset 6 — and returns an
accumulator array over the full (10,10) ROI in which every element was
written by some chunk. -/
theorem scan_2d_scenario :
    exOut.1.length = 9 ∧
    exOut.1.map (fun sub =>
        match lookupKey 0 sub with
        | some rs => rs.roi.offset
        | none => []) =
      [[0, 0], [4, 0], [6, 0], [0, 4], [4, 4], [6, 4], [0, 6], [4, 6], [6, 6]] ∧
    exOut.1.all (fun sub =>
        match lookupKey 0 sub with
        | some rs => rs.roi.shape = [4, 4]
        | none => false) = true ∧
    exAccRoi = ⟨[0, 0], [10, 10]⟩ ∧
    ∀ i : Fin 10, ∀ j : Fin 10, exVal [(i : Int), (j : Int)] = 1 := by
  decide

end Gunpowder
